import Mathlib

/-!
Verification development for the mcp-toolbox sync pipeline.

The definitions below are a shallow embedding of the TypeScript sources of
the repository (packages/mcp-toolbox and packages/mcp-toolbox-runtime):
JSON values become an inductive type, the canonical-hash normalization,
snapshot fingerprinting, snapshot diffing, code-generation naming, transport
selection and the sync orchestrator loop become pure Lean functions, and
file-system writes become explicit event lists.
-/

namespace MT

/-- JSON-like values as manipulated by the pipeline (`unknown` schema trees,
snapshots, catalog entries).  JavaScript objects are insertion-ordered lists
of key/value fields; numbers are modelled as integers (the schemas the
pipeline handles carry no fractional literals). -/
inductive Json where
  | null : Json
  | bool (b : Bool) : Json
  | num (n : Int) : Json
  | str (s : String) : Json
  | arr (xs : List Json) : Json
  | obj (fields : List (String × Json)) : Json

namespace Json

/-- `src/snapshot/normalize.ts` drops the volatile keys `retrievedAt` and
`timestamp` during normalization (`if (key === "retrievedAt" || key === "timestamp") continue`). -/
def droppedKey (k : String) : Bool :=
  k == "retrievedAt" || k == "timestamp"

/-- Lexicographic comparison of character lists by code point, modelling the
default JS string comparison used by `Array.prototype.sort` on key arrays. -/
def charListLeb : List Char → List Char → Bool
  | [], _ => true
  | _ :: _, [] => false
  | c :: cs, d :: ds =>
      if c.toNat < d.toNat then true
      else if d.toNat < c.toNat then false
      else charListLeb cs ds

/-- Lexicographic string comparison (`a <= b` in JS sort order). -/
def strLeb (a b : String) : Bool := charListLeb a.data b.data

theorem charListLeb_cons (c d : Char) (cs ds : List Char) :
    charListLeb (c :: cs) (d :: ds) =
      if c.toNat < d.toNat then true
      else if d.toNat < c.toNat then false
      else charListLeb cs ds := by
  rw [charListLeb]

theorem charListLeb_total (a b : List Char) :
    charListLeb a b = true ∨ charListLeb b a = true := by
  induction a generalizing b with
  | nil => left; rfl
  | cons c cs ih =>
      cases b with
      | nil => right; rfl
      | cons d ds =>
          rw [charListLeb_cons, charListLeb_cons]
          rcases Nat.lt_trichotomy c.toNat d.toNat with h | h | h
          · left; simp [h]
          · have h' : ¬ c.toNat < d.toNat := by omega
            have h'' : ¬ d.toNat < c.toNat := by omega
            rcases ih ds with hcd | hdc
            · left; simp [h', h'', hcd]
            · right; simp [h', h'', hdc]
          · right; simp [h]

theorem charListLeb_trans {a b c : List Char}
    (hab : charListLeb a b = true) (hbc : charListLeb b c = true) :
    charListLeb a c = true := by
  induction a generalizing b c with
  | nil => rfl
  | cons x xs ih =>
      cases b with
      | nil => simp [charListLeb] at hab
      | cons y ys =>
          cases c with
          | nil => simp [charListLeb] at hbc
          | cons z zs =>
              rw [charListLeb_cons] at hab hbc ⊢
              by_cases hxy : x.toNat < y.toNat <;> by_cases hyz : y.toNat < z.toNat
              · simp [show x.toNat < z.toNat by omega]
              · simp only [hyz, if_neg, ite_false, not_false_eq_true] at hbc
                by_cases hzy : z.toNat < y.toNat
                · simp [hzy] at hbc
                · simp [show x.toNat < z.toNat by omega]
              · simp only [hxy, if_neg, ite_false, not_false_eq_true] at hab
                by_cases hyx : y.toNat < x.toNat
                · simp [hyx] at hab
                · simp [show x.toNat < z.toNat by omega]
              · simp only [hxy, if_neg, ite_false, not_false_eq_true] at hab
                simp only [hyz, if_neg, ite_false, not_false_eq_true] at hbc
                by_cases hyx : y.toNat < x.toNat
                · simp [hyx] at hab
                · by_cases hzy : z.toNat < y.toNat
                  · simp [hzy] at hbc
                  · simp only [hyx, if_neg, ite_false, not_false_eq_true] at hab
                    simp only [hzy, if_neg, ite_false, not_false_eq_true] at hbc
                    have h1 : ¬ x.toNat < z.toNat := by omega
                    have h2 : ¬ z.toNat < x.toNat := by omega
                    simp [h1, h2, ih hab hbc]

theorem charListLeb_antisymm {a b : List Char}
    (hab : charListLeb a b = true) (hba : charListLeb b a = true) : a = b := by
  induction a generalizing b with
  | nil =>
      cases b with
      | nil => rfl
      | cons d ds => simp [charListLeb] at hba
  | cons x xs ih =>
      cases b with
      | nil => simp [charListLeb] at hab
      | cons y ys =>
          rw [charListLeb_cons] at hab hba
          by_cases hxy : x.toNat < y.toNat
          · simp [show ¬ y.toNat < x.toNat by omega, hxy] at hba
          · by_cases hyx : y.toNat < x.toNat
            · simp [hxy, hyx] at hab
            · simp only [hxy, hyx, if_neg, ite_false, not_false_eq_true] at hab hba
              have hx : x = y := by
                have h : x.toNat = y.toNat := by omega
                exact Char.ext (UInt32.toNat.inj h)
              rw [hx, ih hab hba]

theorem strLeb_total (a b : String) : strLeb a b = true ∨ strLeb b a = true :=
  charListLeb_total a.data b.data

theorem strLeb_trans {a b c : String} (hab : strLeb a b = true)
    (hbc : strLeb b c = true) : strLeb a c = true :=
  charListLeb_trans hab hbc

theorem strLeb_antisymm {a b : String} (hab : strLeb a b = true)
    (hba : strLeb b a = true) : a = b := by
  cases a; cases b
  exact congrArg String.mk (charListLeb_antisymm hab hba)

/-- Field comparison used to model `Object.keys(obj).sort()`: fields ordered
by key.  A JS object cannot hold two fields with the same key, so sorting
key/value pairs by key is the same as sorting the key list and reading the
values back. -/
def keyLeb (a b : String × Json) : Bool := strLeb a.1 b.1

/-- Insertion into a key-sorted field list. -/
def orderedInsertF (a : String × Json) : List (String × Json) → List (String × Json)
  | [] => [a]
  | b :: l => if keyLeb a b then a :: b :: l else b :: orderedInsertF a l

/-- Sorting an object's fields by key, modelling `Object.keys(obj).sort()`
followed by indexed access. -/
def sortFields : List (String × Json) → List (String × Json)
  | [] => []
  | a :: l => orderedInsertF a (sortFields l)

theorem orderedInsertF_perm (a : String × Json) (l : List (String × Json)) :
    (orderedInsertF a l).Perm (a :: l) := by
  induction l with
  | nil => rfl
  | cons b l ih =>
      rw [orderedInsertF]
      by_cases h : keyLeb a b
      · simp [h]
      · simp only [h, if_neg, Bool.false_eq_true, not_false_eq_true, ite_false]
        exact ((ih.cons b).trans (List.Perm.swap a b l))

theorem sortFields_perm (fs : List (String × Json)) : (sortFields fs).Perm fs := by
  induction fs with
  | nil => rfl
  | cons a l ih =>
      exact (orderedInsertF_perm a (sortFields l)).trans (ih.cons a)

theorem keyLeb_total (a b : String × Json) : keyLeb a b = true ∨ keyLeb b a = true :=
  strLeb_total a.1 b.1

theorem orderedInsertF_sorted {a : String × Json} {l : List (String × Json)}
    (h : l.Pairwise (fun x y => keyLeb x y = true)) :
    (orderedInsertF a l).Pairwise (fun x y => keyLeb x y = true) := by
  induction l with
  | nil => simp [orderedInsertF]
  | cons b l ih =>
      rw [orderedInsertF]
      by_cases hab : keyLeb a b
      · simp only [hab, if_true]
        refine List.Pairwise.cons ?_ h
        intro y hy
        rcases hy with _ | hy
        · exact hab
        · have hb := (List.pairwise_cons.mp h).1 y (by assumption)
          exact strLeb_trans hab hb
      · simp only [hab, Bool.false_eq_true, not_false_eq_true, if_neg, ite_false]
        have hba : keyLeb b a = true := by
          rcases keyLeb_total a b with h' | h'
          · exact absurd h' hab
          · exact h'
        rcases List.pairwise_cons.mp h with ⟨hbl, hl⟩
        refine List.pairwise_cons.mpr ⟨?_, ih hl⟩
        intro y hy
        have : y ∈ a :: l := (orderedInsertF_perm a l).mem_iff.mp hy
        rcases this with _ | hy'
        · exact hba
        · exact hbl y (by assumption)

theorem sortFields_sorted (fs : List (String × Json)) :
    (sortFields fs).Pairwise (fun x y => keyLeb x y = true) := by
  induction fs with
  | nil => simp [sortFields]
  | cons a l ih => exact orderedInsertF_sorted ih

theorem sizeOf_snd_lt_of_mem {fs : List (String × Json)} {f : String × Json}
    (h : f ∈ fs) : sizeOf f.2 < 1 + sizeOf fs := by
  have h1 : sizeOf f < sizeOf fs := List.sizeOf_lt_of_mem h
  have h2 : sizeOf f = 1 + sizeOf f.1 + sizeOf f.2 := by
    cases f
    simp [Prod.mk.sizeOf_spec]
  omega

/-- `normalizeForHash` from `src/snapshot/normalize.ts`:
primitives unchanged, arrays recursed element-wise, objects rebuilt with
their keys sorted lexicographically and the volatile keys
`retrievedAt` / `timestamp` skipped. -/
def normalizeForHash : Json → Json
  | .null => .null
  | .bool b => .bool b
  | .num n => .num n
  | .str s => .str s
  | .arr xs => .arr (xs.attach.map fun x => normalizeForHash x.1)
  | .obj fs =>
      .obj ((((sortFields fs).filter (fun f => !droppedKey f.1)).attach).map
        fun f => (f.1.1, normalizeForHash f.1.2))
termination_by j => sizeOf j
decreasing_by
  · obtain ⟨x, hx⟩ := x
    have := List.sizeOf_lt_of_mem hx
    simp only [Json.arr.sizeOf_spec]
    omega
  · obtain ⟨f, hf⟩ := f
    have hmem := List.mem_of_mem_filter hf
    have hmem' := (sortFields_perm _).subset hmem
    have := sizeOf_snd_lt_of_mem hmem'
    simp only [Json.obj.sizeOf_spec]
    omega

theorem normalizeForHash_arr (xs : List Json) :
    normalizeForHash (.arr xs) = .arr (xs.map normalizeForHash) := by
  rw [normalizeForHash]
  congr 1
  exact List.attach_map_val xs normalizeForHash

theorem normalizeForHash_obj (fs : List (String × Json)) :
    normalizeForHash (.obj fs) =
      .obj (((sortFields fs).filter (fun f => !droppedKey f.1)).map
        fun f => (f.1, normalizeForHash f.2)) := by
  rw [normalizeForHash]
  congr 1
  exact List.attach_map_val ((sortFields fs).filter (fun f => !droppedKey f.1))
    (fun f => (f.1, normalizeForHash f.2))

/-- One character of `JSON.stringify` string escaping (quote, backslash and
the common control characters; other characters are emitted verbatim). -/
def escChar (c : Char) : String :=
  if c = '"' then "\\\""
  else if c = '\\' then "\\\\"
  else if c = '\n' then "\\n"
  else if c = '\t' then "\\t"
  else if c = '\r' then "\\r"
  else String.mk [c]

/-- `JSON.stringify` of a string literal. -/
def quoteStr (s : String) : String :=
  "\"" ++ String.join (s.data.map escChar) ++ "\""

/-- Comma-separated concatenation, as `JSON.stringify` puts between array
elements and object members. -/
def joinComma : List String → String
  | [] => ""
  | [x] => x
  | x :: y :: xs => x ++ "," ++ joinComma (y :: xs)

/-- Compact `JSON.stringify` serialization (no whitespace), as used by
`stableStringify` in `src/snapshot/normalize.ts`. -/
def stringify : Json → String
  | .null => "null"
  | .bool true => "true"
  | .bool false => "false"
  | .num n => toString n
  | .str s => quoteStr s
  | .arr xs =>
      "[" ++ joinComma (xs.attach.map fun x => stringify x.1) ++ "]"
  | .obj fs =>
      "\x7b" ++
        joinComma
          (fs.attach.map fun f => quoteStr f.1.1 ++ ":" ++ stringify f.1.2) ++
        "\x7d"
termination_by j => sizeOf j
decreasing_by
  · obtain ⟨x, hx⟩ := x
    have := List.sizeOf_lt_of_mem hx
    simp only [Json.arr.sizeOf_spec]
    omega
  · obtain ⟨f, hf⟩ := f
    have := sizeOf_snd_lt_of_mem hf
    simp only [Json.obj.sizeOf_spec]
    omega

theorem stringify_arr (xs : List Json) :
    stringify (.arr xs) =
      "[" ++ joinComma (xs.map stringify) ++ "]" := by
  rw [stringify]
  rw [List.attach_map_val xs stringify]

theorem stringify_obj (fs : List (String × Json)) :
    stringify (.obj fs) =
      "\x7b" ++
        joinComma
          (fs.map fun f => quoteStr f.1 ++ ":" ++ stringify f.2) ++
        "\x7d" := by
  rw [stringify]
  rw [List.attach_map_val fs (fun f => quoteStr f.1 ++ ":" ++ stringify f.2)]

end Json

/-- `stableStringify` from `src/snapshot/normalize.ts`:
`JSON.stringify(normalizeForHash(value))`. -/
def stableStringify (v : Json) : String :=
  Json.stringify (Json.normalizeForHash v)

/-- `fingerprint` from `src/snapshot/fingerprint.ts` computes the SHA-256 hex
digest of `stableStringify(value)`.  The digest is a fixed injective-in-practice
function of the canonical string, so the fingerprint is modelled as the
canonical string itself: two values get the same digest exactly when they get
the same canonical serialization. -/
def fingerprint (v : Json) : String :=
  stableStringify v

namespace Json

/-- Key lists of JS objects have no duplicates. -/
def nodupB : List String → Bool
  | [] => true
  | k :: ks => (!ks.contains k) && nodupB ks

theorem nodupB_iff (ks : List String) : nodupB ks = true ↔ ks.Nodup := by
  induction ks with
  | nil => simp [nodupB]
  | cons k ks ih =>
      simp [nodupB, ih, List.contains_eq_any_beq]

/-- Well-formedness of a JSON value as produced by `JSON.parse` or a JS object
literal: every object node has pairwise-distinct keys. -/
def wfB : Json → Bool
  | .null => true
  | .bool _ => true
  | .num _ => true
  | .str _ => true
  | .arr xs => xs.attach.all fun x => wfB x.1
  | .obj fs => nodupB (fs.map Prod.fst) && (fs.attach.all fun f => wfB f.1.2)
termination_by j => sizeOf j
decreasing_by
  · obtain ⟨x, hx⟩ := x
    have := List.sizeOf_lt_of_mem hx
    simp only [Json.arr.sizeOf_spec]
    omega
  · obtain ⟨f, hf⟩ := f
    have := sizeOf_snd_lt_of_mem hf
    simp only [Json.obj.sizeOf_spec]
    omega

theorem wfB_null : wfB .null = true := by rw [wfB]

theorem wfB_bool (b : Bool) : wfB (.bool b) = true := by rw [wfB]

theorem wfB_num (n : Int) : wfB (.num n) = true := by rw [wfB]

theorem wfB_str (s : String) : wfB (.str s) = true := by rw [wfB]

theorem wfB_arr (xs : List Json) :
    wfB (.arr xs) = true ↔ ∀ x ∈ xs, wfB x = true := by
  rw [wfB]
  simp [List.all_eq_true]

theorem wfB_obj (fs : List (String × Json)) :
    wfB (.obj fs) = true ↔
      (fs.map Prod.fst).Nodup ∧ ∀ f ∈ fs, wfB f.2 = true := by
  rw [wfB]
  simp [List.all_eq_true, nodupB_iff]

mutual
/-- Two JSON values hash-equivalent for `normalizeForHash`: equal up to
reordering of object keys at any depth and up to arbitrary differences in the
values of dropped (volatile) keys. -/
inductive HashEquiv : Json → Json → Prop
  | null : HashEquiv .null .null
  | bool (b : Bool) : HashEquiv (.bool b) (.bool b)
  | num (n : Int) : HashEquiv (.num n) (.num n)
  | str (s : String) : HashEquiv (.str s) (.str s)
  | arr {xs ys : List Json} : HashEquivList xs ys → HashEquiv (.arr xs) (.arr ys)
  | obj {fs fs' gs : List (String × Json)} :
      HashEquivFields fs fs' → fs'.Perm gs → HashEquiv (.obj fs) (.obj gs)

inductive HashEquivList : List Json → List Json → Prop
  | nil : HashEquivList [] []
  | cons {x y : Json} {xs ys : List Json} :
      HashEquiv x y → HashEquivList xs ys → HashEquivList (x :: xs) (y :: ys)

inductive HashEquivFields :
    List (String × Json) → List (String × Json) → Prop
  | nil : HashEquivFields [] []
  | consDrop {k : String} {v w : Json} {fs gs : List (String × Json)} :
      droppedKey k = true → HashEquivFields fs gs →
      HashEquivFields ((k, v) :: fs) ((k, w) :: gs)
  | cons {k : String} {v w : Json} {fs gs : List (String × Json)} :
      HashEquiv v w → HashEquivFields fs gs →
      HashEquivFields ((k, v) :: fs) ((k, w) :: gs)
end

theorem hashEquivFields_keys {fs gs : List (String × Json)}
    (h : HashEquivFields fs gs) : fs.map Prod.fst = gs.map Prod.fst :=
  match fs, gs, h with
  | [], [], .nil => rfl
  | (k, _) :: _, (_, _) :: _, .consDrop _ h' => by
      simpa using hashEquivFields_keys h'
  | (k, _) :: _, (_, _) :: _, .cons _ h' => by
      simpa using hashEquivFields_keys h'

/-- Strict key order on fields (antisymmetric because `strLeb` is). -/
def keyLt (a b : String × Json) : Prop := strLeb a.1 b.1 = true ∧ a.1 ≠ b.1

instance : IsAntisymm (String × Json) keyLt :=
  ⟨fun _ _ hab hba => absurd (strLeb_antisymm hab.1 hba.1) hab.2⟩

/-- Two key-sorted field lists that are permutations of each other and have
duplicate-free keys are equal. -/
theorem eq_of_perm_of_sortedKeys {l1 l2 : List (String × Json)}
    (hp : l1.Perm l2)
    (hs1 : l1.Pairwise (fun x y => keyLeb x y = true))
    (hs2 : l2.Pairwise (fun x y => keyLeb x y = true))
    (hn : (l2.map Prod.fst).Nodup) : l1 = l2 := by
  have hn1 : (l1.map Prod.fst).Nodup := ((hp.map Prod.fst).nodup_iff).mpr hn
  have hne1 : l1.Pairwise (fun x y : String × Json => x.1 ≠ y.1) :=
    (List.pairwise_map).mp hn1
  have hne2 : l2.Pairwise (fun x y : String × Json => x.1 ≠ y.1) :=
    (List.pairwise_map).mp hn
  have hlt1 : l1.Pairwise keyLt := by
    have := hs1.and hne1
    exact this.imp fun h => ⟨h.1, h.2⟩
  have hlt2 : l2.Pairwise keyLt := by
    have := hs2.and hne2
    exact this.imp fun h => ⟨h.1, h.2⟩
  exact List.eq_of_perm_of_sorted hp hlt1 hlt2

theorem pairwise_keyLeb_map_norm {l : List (String × Json)}
    (h : l.Pairwise (fun x y => keyLeb x y = true)) :
    (l.map fun f => (f.1, normalizeForHash f.2)).Pairwise
      (fun x y => keyLeb x y = true) := by
  rw [List.pairwise_map]
  exact h.imp fun hxy => hxy

theorem keys_map_norm (l : List (String × Json)) :
    (l.map fun f => (f.1, normalizeForHash f.2)).map Prod.fst = l.map Prod.fst := by
  rw [List.map_map]
  rfl

mutual
theorem normalize_hashEquiv {a b : Json} (h : HashEquiv a b)
    (wf : wfB b = true) : normalizeForHash a = normalizeForHash b :=
  match a, b, h with
  | .null, .null, .null => rfl
  | .bool _, .bool _, .bool _ => rfl
  | .num _, .num _, .num _ => rfl
  | .str _, .str _, .str _ => rfl
  | .arr xs, .arr ys, .arr hl => by
      rw [normalizeForHash_arr, normalizeForHash_arr]
      exact congrArg Json.arr
        (normalizeList_hashEquiv hl ((wfB_arr ys).mp wf))
  | .obj fs, .obj gs, @HashEquiv.obj _ fs' _ hf hperm => by
      rw [normalizeForHash_obj, normalizeForHash_obj]
      refine congrArg Json.obj ?_
      have hwf := (wfB_obj gs).mp wf
      have hwfv : ∀ f ∈ gs, wfB f.2 = true := hwf.2
      have hwfv' : ∀ f ∈ fs', wfB f.2 = true := fun f hf' =>
        hwfv f (hperm.subset hf')
      have hmid :
          ((fs.filter fun f => !droppedKey f.1).map
              fun f => (f.1, normalizeForHash f.2)) =
            ((fs'.filter fun f => !droppedKey f.1).map
              fun f => (f.1, normalizeForHash f.2)) :=
        normalizeFields_hashEquiv hf hwfv'
      have hpL :
          (((sortFields fs).filter fun f => !droppedKey f.1).map
              fun f => (f.1, normalizeForHash f.2)).Perm
            (((sortFields gs).filter fun f => !droppedKey f.1).map
              fun f => (f.1, normalizeForHash f.2)) := by
        have p1 := List.Perm.map (fun f => (f.1, normalizeForHash f.2))
          (List.Perm.filter (fun f => !droppedKey f.1) (sortFields_perm fs))
        have p2 := List.Perm.map (fun f => (f.1, normalizeForHash f.2))
          (List.Perm.filter (fun f => !droppedKey f.1) hperm)
        have p3 := List.Perm.map (fun f => (f.1, normalizeForHash f.2))
          (List.Perm.filter (fun f => !droppedKey f.1) (sortFields_perm gs))
        have p2' :
            ((fs.filter fun f => !droppedKey f.1).map
                fun f => (f.1, normalizeForHash f.2)).Perm
              ((gs.filter fun f => !droppedKey f.1).map
                fun f => (f.1, normalizeForHash f.2)) := by
          rw [hmid]
          exact p2
        exact (p1.trans p2').trans p3.symm
      have hs1 :
          (((sortFields fs).filter fun f => !droppedKey f.1).map
              fun f => (f.1, normalizeForHash f.2)).Pairwise
            (fun x y => keyLeb x y = true) :=
        pairwise_keyLeb_map_norm ((sortFields_sorted fs).filter _)
      have hs2 :
          (((sortFields gs).filter fun f => !droppedKey f.1).map
              fun f => (f.1, normalizeForHash f.2)).Pairwise
            (fun x y => keyLeb x y = true) :=
        pairwise_keyLeb_map_norm ((sortFields_sorted gs).filter _)
      have hnd :
          ((((sortFields gs).filter fun f => !droppedKey f.1).map
              fun f => (f.1, normalizeForHash f.2)).map Prod.fst).Nodup := by
        rw [keys_map_norm]
        refine List.Nodup.sublist (List.Sublist.map Prod.fst
          (List.filter_sublist (sortFields gs))) ?_
        exact (((sortFields_perm gs).map Prod.fst).nodup_iff).mpr hwf.1
      exact eq_of_perm_of_sortedKeys hpL hs1 hs2 hnd

theorem normalizeList_hashEquiv {xs ys : List Json} (h : HashEquivList xs ys)
    (wf : ∀ y ∈ ys, wfB y = true) :
    xs.map normalizeForHash = ys.map normalizeForHash :=
  match xs, ys, h with
  | [], [], .nil => rfl
  | x :: xs, y :: ys, .cons hxy hl => by
      have h1 : normalizeForHash x = normalizeForHash y :=
        normalize_hashEquiv hxy (wf y (by simp))
      have h2 : xs.map normalizeForHash = ys.map normalizeForHash :=
        normalizeList_hashEquiv hl fun y' hy' => wf y' (by simp [hy'])
      simp [h1, h2]

theorem normalizeFields_hashEquiv {fs gs : List (String × Json)}
    (h : HashEquivFields fs gs) (wf : ∀ f ∈ gs, wfB f.2 = true) :
    ((fs.filter fun f => !droppedKey f.1).map
        fun f => (f.1, normalizeForHash f.2)) =
      ((gs.filter fun f => !droppedKey f.1).map
        fun f => (f.1, normalizeForHash f.2)) :=
  match fs, gs, h with
  | [], [], .nil => rfl
  | (k, v) :: fs, (_, w) :: gs, .consDrop hk hf => by
      have htail := normalizeFields_hashEquiv hf
        (fun f hf' => wf f (by simp [hf']))
      simp only [List.filter_cons, hk, Bool.not_true, ite_false, if_neg,
        Bool.false_eq_true, not_false_eq_true]
      exact htail
  | (k, v) :: fs, (_, w) :: gs, .cons hvw hf => by
      have htail := normalizeFields_hashEquiv hf
        (fun f hf' => wf f (by simp [hf']))
      by_cases hk : droppedKey k
      · simp only [List.filter_cons, hk, Bool.not_true, ite_false, if_neg,
          Bool.false_eq_true, not_false_eq_true]
        exact htail
      · have hv : normalizeForHash v = normalizeForHash w :=
          normalize_hashEquiv hvw (wf (k, w) (by simp))
        simp only [List.filter_cons, Bool.not_eq_true] at hk ⊢
        simp only [hk, Bool.not_false, ite_true, if_pos, List.map_cons]
        rw [hv, htail]
end

theorem strdata_append (a b : String) : (a ++ b).data = a.data ++ b.data :=
  rfl

theorem str_append_cancel_left {a x y : String} (h : a ++ x = a ++ y) : x = y := by
  have hd : a.data ++ x.data = a.data ++ y.data := by
    have := congrArg String.data h
    simpa [strdata_append] using this
  cases x
  cases y
  exact congrArg String.mk (List.append_cancel_left hd)

theorem str_append_cancel_right {b x y : String} (h : x ++ b = y ++ b) : x = y := by
  have hd : x.data ++ b.data = y.data ++ b.data := by
    have := congrArg String.data h
    simpa [strdata_append] using this
  cases x
  cases y
  exact congrArg String.mk (List.append_cancel_right hd)

theorem str_append_cancel_mid {a b x y : String}
    (h : a ++ x ++ b = a ++ y ++ b) : x = y := by
  have h1 : a ++ x = a ++ y := str_append_cancel_right h
  exact str_append_cancel_left h1

/-- A single differing element in the middle of a comma join, with identical
elements around it, is recovered by cancellation. -/
theorem joinComma_mid_cancel {pre post : List String} {x y : String}
    (h : joinComma (pre ++ x :: post) = joinComma (pre ++ y :: post)) :
    x = y := by
  induction pre with
  | nil =>
      cases post with
      | nil => simpa [joinComma] using h
      | cons p ps =>
          simp only [List.nil_append, joinComma] at h
          exact @str_append_cancel_right
            ("," ++ joinComma (p :: ps)) _ _ (by
              simpa [String.append_assoc] using h)
  | cons a pre ih =>
      have hcons : ∀ (z : String) (l : List String),
          joinComma (a :: (l ++ z :: post)) =
            a ++ "," ++ joinComma (l ++ z :: post) := by
        intro z l
        cases l with
        | nil => cases post <;> simp [joinComma]
        | cons b bs => simp [joinComma]
      simp only [List.cons_append] at h
      rw [hcons x pre, hcons y pre] at h
      exact ih (str_append_cancel_left h)

end Json

/-- One introspected tool as built in `introspectServer`
(`{ name: t.name, description: t.description, inputSchema: t.inputSchema }`):
`description` and `inputSchema` may be absent.  An absent (JS `undefined`)
property survives the normalization pass unchanged and is then omitted by
`JSON.stringify`, so it is modelled as an omitted field. -/
structure McpToolDefinition where
  name : String
  description : Option String
  inputSchema : Option Json

/-- The JSON object a tool contributes to the snapshot serialization. -/
def toolJson (t : McpToolDefinition) : Json :=
  .obj ([("name", .str t.name)]
    ++ (match t.description with
        | some d => [("description", .str d)]
        | none => [])
    ++ (match t.inputSchema with
        | some s => [("inputSchema", s)]
        | none => []))

/-- The value passed to `fingerprint` by `fingerprintFromTools` in
`commands/sync.ts`: `{ serverName, version, tools }` (note: `retrievedAt` and
`transport` are not part of the hashed value). -/
def snapshotHashInput (serverName version : String)
    (tools : List McpToolDefinition) : Json :=
  .obj [("serverName", .str serverName), ("version", .str version),
        ("tools", .arr (tools.map toolJson))]

/-- `fingerprintFromTools` from `commands/sync.ts`. -/
def fingerprintFromTools (serverName version : String)
    (tools : List McpToolDefinition) : String :=
  fingerprint (snapshotHashInput serverName version tools)

/-- The canonical serialization of one tool inside the snapshot hash input. -/
def toolCanon (t : McpToolDefinition) : String :=
  Json.stringify (Json.normalizeForHash (toolJson t))

/-- Closed form of the snapshot fingerprint: keys sorted to
`serverName`, `tools`, `version`, tools serialized in list order. -/
theorem fingerprintFromTools_eq (n v : String) (ts : List McpToolDefinition) :
    fingerprintFromTools n v ts =
      "\x7b" ++ Json.quoteStr "serverName" ++ ":" ++ Json.quoteStr n ++
        "," ++ Json.quoteStr "tools" ++ ":" ++ "[" ++
        Json.joinComma (ts.map toolCanon) ++ "]" ++
        "," ++ Json.quoteStr "version" ++ ":" ++ Json.quoteStr v ++ "\x7d" := by
  show Json.stringify (Json.normalizeForHash (snapshotHashInput n v ts)) = _
  have hsort :
      ((Json.sortFields
          [("serverName", Json.str n), ("version", Json.str v),
           ("tools", Json.arr (ts.map toolJson))]).filter
        fun f => !Json.droppedKey f.1) =
      [("serverName", Json.str n), ("tools", Json.arr (ts.map toolJson)),
       ("version", Json.str v)] := by
    simp [Json.sortFields, Json.orderedInsertF, Json.keyLeb, Json.strLeb,
      Json.charListLeb, Json.droppedKey]
  rw [snapshotHashInput, Json.normalizeForHash_obj, hsort]
  rw [List.map_cons, List.map_cons, List.map_cons, List.map_nil]
  rw [Json.normalizeForHash_arr, Json.stringify_obj]
  simp only [List.map_cons, List.map_nil, List.map_map, Json.joinComma,
    Json.normalizeForHash]
  have emap : List.map toolCanon ts =
      List.map (Json.stringify ∘ Json.normalizeForHash ∘ toolJson) ts := rfl
  rw [emap]
  simp [Json.stringify_arr, Json.stringify, Function.comp, String.append_assoc]
  have hfix : ∀ X : String, ":" ++ ("[" ++ X) = ":[" ++ X := by
    intro X
    rw [← String.append_assoc]
    have hlit : (":" ++ "[" : String) = ":[" := by decide
    rw [hlit]
  rw [hfix]

/-- Canonical serialization of a tool carrying a description and an input
schema: keys sort to `description`, `inputSchema`, `name`. -/
theorem toolCanon_eq_desc (t : McpToolDefinition) (d : String) (s : Json)
    (hd : t.description = some d) (hs : t.inputSchema = some s) :
    toolCanon t =
      "\x7b" ++ Json.quoteStr "description" ++ ":" ++ Json.quoteStr d ++
        "," ++ Json.quoteStr "inputSchema" ++ ":" ++ stableStringify s ++
        "," ++ Json.quoteStr "name" ++ ":" ++ Json.quoteStr t.name ++ "\x7d" := by
  rw [toolCanon, toolJson, hd, hs]
  have hsort :
      ((Json.sortFields
          [("name", Json.str t.name), ("description", Json.str d),
           ("inputSchema", s)]).filter fun f => !Json.droppedKey f.1) =
      [("description", Json.str d), ("inputSchema", s),
       ("name", Json.str t.name)] := by
    simp [Json.sortFields, Json.orderedInsertF, Json.keyLeb, Json.strLeb,
      Json.charListLeb, Json.droppedKey]
  rw [show ([("name", Json.str t.name)] ++
        [("description", Json.str d)] ++ [("inputSchema", s)] :
        List (String × Json)) =
      [("name", Json.str t.name), ("description", Json.str d),
       ("inputSchema", s)] from rfl]
  rw [Json.normalizeForHash_obj, hsort]
  rw [Json.stringify_obj]
  simp [Json.joinComma, Json.normalizeForHash, Json.stringify, stableStringify, String.append_assoc]

/-- Canonical serialization of a tool with an input schema and no
description. -/
theorem toolCanon_eq_nodesc (t : McpToolDefinition) (s : Json)
    (hd : t.description = none) (hs : t.inputSchema = some s) :
    toolCanon t =
      "\x7b" ++ Json.quoteStr "inputSchema" ++ ":" ++ stableStringify s ++
        "," ++ Json.quoteStr "name" ++ ":" ++ Json.quoteStr t.name ++ "\x7d" := by
  rw [toolCanon, toolJson, hd, hs]
  have hsort :
      ((Json.sortFields
          [("name", Json.str t.name), ("inputSchema", s)]).filter
        fun f => !Json.droppedKey f.1) =
      [("inputSchema", s), ("name", Json.str t.name)] := by
    simp [Json.sortFields, Json.orderedInsertF, Json.keyLeb, Json.strLeb,
      Json.charListLeb, Json.droppedKey]
  rw [show ([("name", Json.str t.name)] ++ ([] : List (String × Json)) ++
        [("inputSchema", s)] : List (String × Json)) =
      [("name", Json.str t.name), ("inputSchema", s)] from rfl]
  rw [Json.normalizeForHash_obj, hsort]
  rw [Json.stringify_obj]
  simp [Json.joinComma, Json.normalizeForHash, Json.stringify, stableStringify, String.append_assoc]

/-- Replacing one tool's input schema with one whose canonical serialization
differs changes the snapshot fingerprint, provided name and description are
unchanged. -/
theorem fingerprint_schema_sensitive (n v : String)
    (pre post : List McpToolDefinition) (t1 t2 : McpToolDefinition)
    (s1 s2 : Json) (hn : t2.name = t1.name) (hd : t2.description = t1.description)
    (h1 : t1.inputSchema = some s1) (h2 : t2.inputSchema = some s2)
    (hs : stableStringify s1 ≠ stableStringify s2) :
    fingerprintFromTools n v (pre ++ t1 :: post) ≠
      fingerprintFromTools n v (pre ++ t2 :: post) := by
  intro h
  rw [fingerprintFromTools_eq, fingerprintFromTools_eq] at h
  have h' :
      Json.joinComma ((pre ++ t1 :: post).map toolCanon) =
        Json.joinComma ((pre ++ t2 :: post).map toolCanon) := by
    have s1r := Json.str_append_cancel_right h
    have s2r := Json.str_append_cancel_right s1r
    have s3r := Json.str_append_cancel_right s2r
    have s4r := Json.str_append_cancel_right s3r
    have s5r := Json.str_append_cancel_right s4r
    have s6r := Json.str_append_cancel_right s5r
    exact Json.str_append_cancel_left s6r
  rw [List.map_append, List.map_append, List.map_cons, List.map_cons] at h'
  have htc : toolCanon t1 = toolCanon t2 := Json.joinComma_mid_cancel h'
  have hss : stableStringify s1 = stableStringify s2 := by
    cases hde : t1.description with
    | some d =>
        rw [toolCanon_eq_desc t1 d s1 hde h1,
          toolCanon_eq_desc t2 d s2 (by rw [hd, hde]) h2, hn] at htc
        have r1 := Json.str_append_cancel_right htc
        have r2 := Json.str_append_cancel_right r1
        have r3 := Json.str_append_cancel_right r2
        have r4 := Json.str_append_cancel_right r3
        have r5 := Json.str_append_cancel_right r4
        exact Json.str_append_cancel_left r5
    | none =>
        rw [toolCanon_eq_nodesc t1 s1 hde h1,
          toolCanon_eq_nodesc t2 s2 (by rw [hd, hde]) h2, hn] at htc
        have r1 := Json.str_append_cancel_right htc
        have r2 := Json.str_append_cancel_right r1
        have r3 := Json.str_append_cancel_right r2
        have r4 := Json.str_append_cancel_right r3
        have r5 := Json.str_append_cancel_right r4
        exact Json.str_append_cancel_left r5
  exact hs hss

/-! ## Snapshots and the diff engine (`src/diff/diffSnapshots.ts`) -/

/-- A normalized introspection result (`IntrospectedServer` in
`src/introspect/types.ts`).  The transport descriptor carries no information
used by fingerprinting, diffing or the catalog and is omitted here. -/
structure IntrospectedServer where
  serverName : String
  version : String
  retrievedAt : String
  tools : List McpToolDefinition

/-- One record of `DiffSummary.changes` (`src/diff/types.ts`). -/
inductive Change where
  | tool_removed (toolName : String)
  | tool_added (toolName : String)
  | tool_description_changed (toolName : String)
  | tool_changed (toolName : String) (fields : List String)
deriving DecidableEq

/-- Result of `diffSnapshots`. -/
structure DiffSummary where
  breaking : Bool
  changes : List Change
deriving DecidableEq

/-- `stableStringify` applied to an optional schema: JS
`JSON.stringify(normalizeForHash(undefined))` is `undefined`, so two absent
schemas compare equal and an absent schema differs from every present one. -/
def stableStringifyOpt : Option Json → Option String
  | none => none
  | some j => some (stableStringify j)

/-- `Map.set` of a JS `Map` keyed by strings: an existing key keeps its
original position and gets the new value, a new key is appended. -/
def mapSet (m : List (String × McpToolDefinition)) (k : String)
    (t : McpToolDefinition) : List (String × McpToolDefinition) :=
  if m.any (fun kv => kv.1 == k) then
    m.map fun kv => if kv.1 == k then (kv.1, t) else kv
  else m ++ [(k, t)]

/-- `Map.has`. -/
def mapHas (m : List (String × McpToolDefinition)) (k : String) : Bool :=
  m.any fun kv => kv.1 == k

/-- `Map.get` (`undefined` for a missing key). -/
def mapGet (m : List (String × McpToolDefinition)) (k : String) :
    Option McpToolDefinition :=
  (m.find? fun kv => kv.1 == k).map Prod.snd

/-- `indexTools` from `src/diff/diffSnapshots.ts`: index a tool list by name
into an insertion-ordered map. -/
def indexTools (tools : List McpToolDefinition) :
    List (String × McpToolDefinition) :=
  tools.foldl (fun m t => mapSet m t.name t) []

/-- The records the shared-tool loop of `diffSnapshots` pushes for one entry
of the old tool map: a `tool_description_changed` when the (defaulted)
descriptions differ followed by a `tool_changed [inputSchema]` when the
canonical schema serializations differ; nothing when the tool is not shared. -/
def sharedBlock (newIdx : List (String × McpToolDefinition))
    (kv : String × McpToolDefinition) : List Change :=
  match mapGet newIdx kv.1 with
  | none => []
  | some newTool =>
      (if kv.2.description.getD "" ≠ newTool.description.getD "" then
        [Change.tool_description_changed kv.1]
      else []) ++
      (if stableStringifyOpt kv.2.inputSchema ≠
          stableStringifyOpt newTool.inputSchema then
        [Change.tool_changed kv.1 ["inputSchema"]]
      else [])

/-- The shared-tool loop's contribution to `breaking` for one entry. -/
def sharedBreaking (newIdx : List (String × McpToolDefinition))
    (kv : String × McpToolDefinition) : Bool :=
  match mapGet newIdx kv.1 with
  | none => false
  | some newTool =>
      stableStringifyOpt kv.2.inputSchema ≠
        stableStringifyOpt newTool.inputSchema

/-- `diffSnapshots` from `src/diff/diffSnapshots.ts`.  The three `for` loops
are rendered as one pass each over the indexed maps; `breaking` is set by the
removal loop and by the shared-tool loop when `inputSchema` differs under the
canonical serialization. -/
def diffSnapshots (oldSnap newSnap : IntrospectedServer) : DiffSummary :=
  let oldTools := indexTools oldSnap.tools
  let newTools := indexTools newSnap.tools
  let removed := (oldTools.map Prod.fst).filterMap fun toolName =>
    if mapHas newTools toolName then none
    else some (Change.tool_removed toolName)
  let added := (newTools.map Prod.fst).filterMap fun toolName =>
    if mapHas oldTools toolName then none
    else some (Change.tool_added toolName)
  let shared := oldTools.flatMap (sharedBlock newTools)
  let schemaBreaking := oldTools.any (sharedBreaking newTools)
  { breaking := !removed.isEmpty || schemaBreaking
    changes := removed ++ added ++ shared }

theorem mapSet_keys (m : List (String × McpToolDefinition)) (k : String)
    (t : McpToolDefinition) :
    (mapSet m k t).map Prod.fst =
      if mapHas m k then m.map Prod.fst else m.map Prod.fst ++ [k] := by
  rw [mapSet, mapHas]
  by_cases h : m.any fun kv => kv.1 == k
  · simp only [h, if_pos, ite_true, List.map_map]
    refine List.map_congr_left ?_
    intro kv _
    by_cases hk : kv.1 == k <;> simp [hk, Function.comp]
  · simp [h]

theorem mapHas_iff (m : List (String × McpToolDefinition)) (k : String) :
    mapHas m k = true ↔ k ∈ m.map Prod.fst := by
  simp [mapHas, List.any_eq_true]

theorem indexTools_keys_nodup (ts : List McpToolDefinition) :
    ((indexTools ts).map Prod.fst).Nodup := by
  rw [indexTools]
  suffices h : ∀ (m : List (String × McpToolDefinition)),
      (m.map Prod.fst).Nodup →
      ((ts.foldl (fun m t => mapSet m t.name t) m).map Prod.fst).Nodup by
    exact h [] (by simp)
  induction ts with
  | nil => intro m hm; simpa using hm
  | cons t ts ih =>
      intro m hm
      rw [List.foldl_cons]
      refine ih (mapSet m t.name t) ?_
      rw [mapSet_keys]
      by_cases h : mapHas m t.name
      · simpa [h] using hm
      · have : t.name ∉ m.map Prod.fst := fun hmem =>
          absurd ((mapHas_iff m t.name).mpr hmem) (by simpa using h)
        simp [h, List.nodup_append, hm, this]

theorem count_filterMap_guard (mk : String → Change)
    (hinj : ∀ a b, mk a = mk b → a = b) (g : String → Bool) (n : String)
    {ks : List String} (hnd : ks.Nodup) :
    ((ks.filterMap fun nm =>
        if g nm then none else some (mk nm)).count (mk n)) =
      if n ∈ ks ∧ g n = false then 1 else 0 := by
  induction ks with
  | nil => simp
  | cons k ks ih =>
      have hk : k ∉ ks := (List.nodup_cons.mp hnd).1
      have htail := ih (List.nodup_cons.mp hnd).2
      rw [List.filterMap_cons]
      by_cases hg : g k
      · simp only [hg, ite_true, if_pos]
        rw [htail]
        by_cases hkn : n = k
        · subst hkn
          simp [hk, hg]
        · simp [hkn]
      · simp only [hg, Bool.false_eq_true, not_false_eq_true, if_neg, ite_false]
        rw [List.count_cons, htail]
        by_cases hkn : n = k
        · subst hkn
          simp [hk, hg]
        · have : ¬ (mk k == mk n) = true := by
            simp only [beq_iff_eq]
            intro he
            exact hkn (hinj _ _ he).symm
          simp only [this, if_neg, ite_false, Bool.false_eq_true,
            not_false_eq_true]
          simp [hkn]

theorem mem_filterMap_guard {mk : String → Change} {g : String → Bool}
    {ks : List String} {x : Change}
    (hx : x ∈ ks.filterMap fun nm => if g nm then none else some (mk nm)) :
    ∃ nm, x = mk nm := by
  rcases List.mem_filterMap.mp hx with ⟨nm, _, hnm⟩
  by_cases hg : g nm
  · simp [hg] at hnm
  · simp only [hg, Bool.false_eq_true, not_false_eq_true, if_neg,
      ite_false, Option.some.injEq] at hnm
    exact ⟨nm, hnm.symm⟩

theorem mapGet_cons (k : String) (o : McpToolDefinition)
    (m : List (String × McpToolDefinition)) (n : String) :
    mapGet ((k, o) :: m) n = if k == n then some o else mapGet m n := by
  by_cases h : k == n <;> simp [mapGet, List.find?_cons, h]

theorem sharedBlock_shapes {newIdx : List (String × McpToolDefinition)}
    {kv : String × McpToolDefinition} {x : Change}
    (hx : x ∈ sharedBlock newIdx kv) :
    x = Change.tool_description_changed kv.1 ∨
      x = Change.tool_changed kv.1 ["inputSchema"] := by
  rw [sharedBlock] at hx
  rcases hget : mapGet newIdx kv.1 with _ | t
  · simp [hget] at hx
  · rw [hget] at hx
    rcases List.mem_append.mp hx with h | h
    · left
      by_cases hc : kv.2.description.getD "" ≠ t.description.getD ""
      · simpa [hc] using h
      · simp [hc] at h
    · right
      by_cases hc : stableStringifyOpt kv.2.inputSchema ≠
          stableStringifyOpt t.inputSchema
      · simpa [hc] using h
      · simp [hc] at h

theorem count_shared_desc_notmem
    {newIdx m : List (String × McpToolDefinition)} {n : String}
    (hn : n ∉ m.map Prod.fst) :
    (m.flatMap (sharedBlock newIdx)).count
      (Change.tool_description_changed n) = 0 := by
  rw [List.count_eq_zero]
  intro hmem
  rcases List.mem_flatMap.mp hmem with ⟨kv, hkv, hx⟩
  rcases sharedBlock_shapes hx with h | h
  · have hkey : n = kv.1 := by
      injection h
    exact hn (hkey ▸ List.mem_map_of_mem Prod.fst hkv)
  · cases h

theorem count_shared_changed_notmem
    {newIdx m : List (String × McpToolDefinition)} {n : String}
    (hn : n ∉ m.map Prod.fst) :
    (m.flatMap (sharedBlock newIdx)).count
      (Change.tool_changed n ["inputSchema"]) = 0 := by
  rw [List.count_eq_zero]
  intro hmem
  rcases List.mem_flatMap.mp hmem with ⟨kv, hkv, hx⟩
  rcases sharedBlock_shapes hx with h | h
  · cases h
  · have hkey : n = kv.1 := by
      injection h
    exact hn (hkey ▸ List.mem_map_of_mem Prod.fst hkv)

/-- Whether the shared-tool loop reports a description change for name `n`. -/
def descDiffB (oldIdx newIdx : List (String × McpToolDefinition))
    (n : String) : Bool :=
  match mapGet oldIdx n, mapGet newIdx n with
  | some o, some t => o.description.getD "" != t.description.getD ""
  | _, _ => false

/-- Whether the shared-tool loop reports a schema change for name `n`. -/
def schemaDiffB (oldIdx newIdx : List (String × McpToolDefinition))
    (n : String) : Bool :=
  match mapGet oldIdx n, mapGet newIdx n with
  | some o, some t =>
      stableStringifyOpt o.inputSchema != stableStringifyOpt t.inputSchema
  | _, _ => false

theorem count_shared_desc {newIdx : List (String × McpToolDefinition)}
    {m : List (String × McpToolDefinition)} (hnd : (m.map Prod.fst).Nodup)
    (n : String) :
    (m.flatMap (sharedBlock newIdx)).count (Change.tool_description_changed n) =
      if descDiffB m newIdx n then 1 else 0 := by
  induction m with
  | nil => simp [descDiffB, mapGet]
  | cons kv m ih =>
      obtain ⟨k, o⟩ := kv
      have hk : k ∉ m.map Prod.fst := by
        simpa using (List.nodup_cons.mp hnd).1
      have htail := ih (List.nodup_cons.mp hnd).2
      rw [List.flatMap_cons, List.count_append]
      by_cases hkn : k = n
      · subst hkn
        rw [count_shared_desc_notmem hk]
        rcases hget : mapGet newIdx k with _ | t
        · simp [sharedBlock, descDiffB, mapGet_cons, hget]
        · by_cases hc : o.description.getD "" ≠ t.description.getD "" <;>
            by_cases hs : stableStringifyOpt o.inputSchema ≠
                stableStringifyOpt t.inputSchema <;>
              simp [sharedBlock, descDiffB, mapGet_cons, hget, hc, hs,
                List.count_append, List.count_cons]
      · have hblock : ((sharedBlock newIdx) ((k, o))).count
            (Change.tool_description_changed n) = 0 := by
          rw [List.count_eq_zero]
          intro hmem
          rcases sharedBlock_shapes hmem with h | h
          · refine absurd ?_ hkn
            have h1 : n = (k, o).1 := by injection h
            exact h1.symm
          · cases h
        have hb : (k == n) = false := by
          simpa using hkn
        rw [hblock, htail]
        have hd : descDiffB ((k, o) :: m) newIdx n = descDiffB m newIdx n := by
          simp [descDiffB, mapGet_cons, hb]
        rw [hd]
        omega

theorem count_shared_changed {newIdx : List (String × McpToolDefinition)}
    {m : List (String × McpToolDefinition)} (hnd : (m.map Prod.fst).Nodup)
    (n : String) :
    (m.flatMap (sharedBlock newIdx)).count
        (Change.tool_changed n ["inputSchema"]) =
      if schemaDiffB m newIdx n then 1 else 0 := by
  induction m with
  | nil => simp [schemaDiffB, mapGet]
  | cons kv m ih =>
      obtain ⟨k, o⟩ := kv
      have hk : k ∉ m.map Prod.fst := by
        simpa using (List.nodup_cons.mp hnd).1
      have htail := ih (List.nodup_cons.mp hnd).2
      rw [List.flatMap_cons, List.count_append]
      by_cases hkn : k = n
      · subst hkn
        rw [count_shared_changed_notmem hk]
        rcases hget : mapGet newIdx k with _ | t
        · simp [sharedBlock, schemaDiffB, mapGet_cons, hget]
        · by_cases hc : o.description.getD "" ≠ t.description.getD "" <;>
            by_cases hs : stableStringifyOpt o.inputSchema ≠
                stableStringifyOpt t.inputSchema <;>
              simp [sharedBlock, schemaDiffB, mapGet_cons, hget, hc, hs,
                List.count_append, List.count_cons]
      · have hblock : ((sharedBlock newIdx) ((k, o))).count
            (Change.tool_changed n ["inputSchema"]) = 0 := by
          rw [List.count_eq_zero]
          intro hmem
          rcases sharedBlock_shapes hmem with h | h
          · cases h
          · refine absurd ?_ hkn
            have h1 : n = (k, o).1 := by injection h
            exact h1.symm
        have hb : (k == n) = false := by
          simpa using hkn
        rw [hblock, htail]
        have hd : schemaDiffB ((k, o) :: m) newIdx n = schemaDiffB m newIdx n := by
          simp [schemaDiffB, mapGet_cons, hb]
        rw [hd]
        omega

theorem count_eq_zero_of_shapes {l : List Change} {x : Change}
    (h : ∀ y ∈ l, y ≠ x) : l.count x = 0 :=
  List.count_eq_zero.mpr fun hx => (h x hx) rfl

/-- The `changes` list of `diffSnapshots a b`, spelled out. -/
theorem diffSnapshots_changes (a b : IntrospectedServer) :
    (diffSnapshots a b).changes =
      (((indexTools a.tools).map Prod.fst).filterMap fun toolName =>
        if mapHas (indexTools b.tools) toolName then none
        else some (Change.tool_removed toolName)) ++
      (((indexTools b.tools).map Prod.fst).filterMap fun toolName =>
        if mapHas (indexTools a.tools) toolName then none
        else some (Change.tool_added toolName)) ++
      ((indexTools a.tools).flatMap (sharedBlock (indexTools b.tools))) := rfl

/-- The `breaking` flag of `diffSnapshots a b`, spelled out. -/
theorem diffSnapshots_breaking (a b : IntrospectedServer) :
    (diffSnapshots a b).breaking =
      (!(((indexTools a.tools).map Prod.fst).filterMap fun toolName =>
          if mapHas (indexTools b.tools) toolName then none
          else some (Change.tool_removed toolName)).isEmpty ||
        (indexTools a.tools).any (sharedBreaking (indexTools b.tools))) := rfl

theorem sharedBlock_changed_mem_iff (newIdx : List (String × McpToolDefinition))
    (kv : String × McpToolDefinition) :
    (Change.tool_changed kv.1 ["inputSchema"] ∈ sharedBlock newIdx kv) ↔
      sharedBreaking newIdx kv = true := by
  rcases hget : mapGet newIdx kv.1 with _ | t
  · rw [sharedBlock, sharedBreaking, hget]
    simp
  · rw [sharedBlock, sharedBreaking, hget]
    by_cases hs : stableStringifyOpt kv.2.inputSchema ≠
        stableStringifyOpt t.inputSchema <;>
      by_cases hc : kv.2.description.getD "" ≠ t.description.getD "" <;>
        simp [hs, hc]

/--
C2: for every pair of snapshots, `diffSnapshots` emits one `tool_removed`
record per name present in old but not new, one `tool_added` per name present
in new but not old, one `tool_description_changed` per shared name whose
defaulted descriptions differ, one `tool_changed [inputSchema]` per shared
name whose input schemas differ under the canonical serialization used for
fingerprinting (every `tool_changed` record lists exactly `inputSchema`), and
`breaking` is true iff at least one `tool_removed` or `tool_changed` record
is present.
-/
theorem diffSnapshots_spec (a b : IntrospectedServer) :
    (∀ n : String,
      (diffSnapshots a b).changes.count (Change.tool_removed n) =
        (if n ∈ (indexTools a.tools).map Prod.fst ∧
            n ∉ (indexTools b.tools).map Prod.fst then 1 else 0) ∧
      (diffSnapshots a b).changes.count (Change.tool_added n) =
        (if n ∈ (indexTools b.tools).map Prod.fst ∧
            n ∉ (indexTools a.tools).map Prod.fst then 1 else 0) ∧
      (diffSnapshots a b).changes.count (Change.tool_description_changed n) =
        (if descDiffB (indexTools a.tools) (indexTools b.tools) n
          then 1 else 0) ∧
      (diffSnapshots a b).changes.count (Change.tool_changed n ["inputSchema"]) =
        (if schemaDiffB (indexTools a.tools) (indexTools b.tools) n
          then 1 else 0)) ∧
    (∀ n fields, Change.tool_changed n fields ∈ (diffSnapshots a b).changes →
      fields = ["inputSchema"]) ∧
    ((diffSnapshots a b).breaking = true ↔
      (∃ n, Change.tool_removed n ∈ (diffSnapshots a b).changes) ∨
      (∃ n fields, Change.tool_changed n fields ∈ (diffSnapshots a b).changes)) := by
  have hndo := indexTools_keys_nodup a.tools
  have hndn := indexTools_keys_nodup b.tools
  have hshape_rem : ∀ y ∈ (((indexTools a.tools).map Prod.fst).filterMap
      fun toolName => if mapHas (indexTools b.tools) toolName then none
        else some (Change.tool_removed toolName)), ∃ nm, y = .tool_removed nm :=
    fun y hy => mem_filterMap_guard hy
  have hshape_add : ∀ y ∈ (((indexTools b.tools).map Prod.fst).filterMap
      fun toolName => if mapHas (indexTools a.tools) toolName then none
        else some (Change.tool_added toolName)), ∃ nm, y = .tool_added nm :=
    fun y hy => mem_filterMap_guard hy
  have hshape_sh : ∀ y ∈ (indexTools a.tools).flatMap
      (sharedBlock (indexTools b.tools)),
      (∃ nm, y = .tool_description_changed nm) ∨
        (∃ nm, y = .tool_changed nm ["inputSchema"]) := by
    intro y hy
    rcases List.mem_flatMap.mp hy with ⟨kv, _, hx⟩
    rcases sharedBlock_shapes hx with h | h
    · exact Or.inl ⟨kv.1, h⟩
    · exact Or.inr ⟨kv.1, h⟩
  refine ⟨?_, ?_, ?_⟩
  · intro n
    rw [diffSnapshots_changes, List.count_append, List.count_append,
      List.count_append, List.count_append, List.count_append,
      List.count_append, List.count_append, List.count_append]
    have hcond : ∀ (idx : List (String × McpToolDefinition)) (nm : String),
        (mapHas idx nm = false) ↔ nm ∉ idx.map Prod.fst := by
      intro idx nm
      rw [← mapHas_iff]
      simp
    refine ⟨?_, ?_, ?_, ?_⟩
    · have h1 := count_filterMap_guard Change.tool_removed
        (fun x y h => by injection h)
        (fun nm => mapHas (indexTools b.tools) nm) n hndo
      have h2 : (((indexTools b.tools).map Prod.fst).filterMap
          fun toolName => if mapHas (indexTools a.tools) toolName then none
            else some (Change.tool_added toolName)).count
            (Change.tool_removed n) = 0 :=
        count_eq_zero_of_shapes fun y hy => by
          rcases hshape_add y hy with ⟨nm, rfl⟩
          simp
      have h3 : ((indexTools a.tools).flatMap
          (sharedBlock (indexTools b.tools))).count (Change.tool_removed n) = 0 :=
        count_eq_zero_of_shapes fun y hy => by
          rcases hshape_sh y hy with ⟨nm, rfl⟩ | ⟨nm, rfl⟩ <;> simp
      rw [h1, h2, h3]
      by_cases hmem : n ∈ (indexTools b.tools).map Prod.fst
      · have hh : mapHas (indexTools b.tools) n = true :=
          (mapHas_iff _ _).mpr hmem
        simp [hh, hmem]
      · have hh : mapHas (indexTools b.tools) n = false :=
          (hcond _ _).mpr hmem
        by_cases hA : n ∈ (indexTools a.tools).map Prod.fst <;>
          simp [hA, hh, hmem]
    · have h1 := count_filterMap_guard Change.tool_added
        (fun x y h => by injection h)
        (fun nm => mapHas (indexTools a.tools) nm) n hndn
      have h2 : (((indexTools a.tools).map Prod.fst).filterMap
          fun toolName => if mapHas (indexTools b.tools) toolName then none
            else some (Change.tool_removed toolName)).count
            (Change.tool_added n) = 0 :=
        count_eq_zero_of_shapes fun y hy => by
          rcases hshape_rem y hy with ⟨nm, rfl⟩
          simp
      have h3 : ((indexTools a.tools).flatMap
          (sharedBlock (indexTools b.tools))).count (Change.tool_added n) = 0 :=
        count_eq_zero_of_shapes fun y hy => by
          rcases hshape_sh y hy with ⟨nm, rfl⟩ | ⟨nm, rfl⟩ <;> simp
      rw [h1, h2, h3]
      by_cases hmem : n ∈ (indexTools a.tools).map Prod.fst
      · have hh : mapHas (indexTools a.tools) n = true :=
          (mapHas_iff _ _).mpr hmem
        simp [hh, hmem]
      · have hh : mapHas (indexTools a.tools) n = false :=
          (hcond _ _).mpr hmem
        by_cases hA : n ∈ (indexTools b.tools).map Prod.fst <;>
          simp [hA, hh, hmem]
    · have h1 : (((indexTools a.tools).map Prod.fst).filterMap
          fun toolName => if mapHas (indexTools b.tools) toolName then none
            else some (Change.tool_removed toolName)).count
            (Change.tool_description_changed n) = 0 :=
        count_eq_zero_of_shapes fun y hy => by
          rcases hshape_rem y hy with ⟨nm, rfl⟩
          simp
      have h2 : (((indexTools b.tools).map Prod.fst).filterMap
          fun toolName => if mapHas (indexTools a.tools) toolName then none
            else some (Change.tool_added toolName)).count
            (Change.tool_description_changed n) = 0 :=
        count_eq_zero_of_shapes fun y hy => by
          rcases hshape_add y hy with ⟨nm, rfl⟩
          simp
      have h3 := @count_shared_desc (indexTools b.tools) _ hndo n
      rw [h1, h2, h3]
      omega
    · have h1 : (((indexTools a.tools).map Prod.fst).filterMap
          fun toolName => if mapHas (indexTools b.tools) toolName then none
            else some (Change.tool_removed toolName)).count
            (Change.tool_changed n ["inputSchema"]) = 0 :=
        count_eq_zero_of_shapes fun y hy => by
          rcases hshape_rem y hy with ⟨nm, rfl⟩
          simp
      have h2 : (((indexTools b.tools).map Prod.fst).filterMap
          fun toolName => if mapHas (indexTools a.tools) toolName then none
            else some (Change.tool_added toolName)).count
            (Change.tool_changed n ["inputSchema"]) = 0 :=
        count_eq_zero_of_shapes fun y hy => by
          rcases hshape_add y hy with ⟨nm, rfl⟩
          simp
      have h3 := @count_shared_changed (indexTools b.tools) _ hndo n
      rw [h1, h2, h3]
      omega
  · intro n fields hmem
    rw [diffSnapshots_changes] at hmem
    rcases List.mem_append.mp hmem with hmem' | hsh
    · rcases List.mem_append.mp hmem' with hr | ha
      · rcases hshape_rem _ hr with ⟨nm, h⟩
        cases h
      · rcases hshape_add _ ha with ⟨nm, h⟩
        cases h
    · rcases hshape_sh _ hsh with ⟨nm, h⟩ | ⟨nm, h⟩
      · cases h
      · injection h with h1 h2
  · rw [diffSnapshots_breaking]
    constructor
    · intro hbr
      rcases Bool.or_eq_true_iff.mp hbr with hrem | hsch
      · left
        have hne : (((indexTools a.tools).map Prod.fst).filterMap
            fun toolName => if mapHas (indexTools b.tools) toolName then none
              else some (Change.tool_removed toolName)) ≠ [] := by
          intro he
          rw [he] at hrem
          simp at hrem
        rcases List.exists_mem_of_ne_nil _ hne with ⟨y, hy⟩
        rcases hshape_rem y hy with ⟨nm, rfl⟩
        exact ⟨nm, by
          rw [diffSnapshots_changes]
          exact List.mem_append.mpr (Or.inl (List.mem_append.mpr (Or.inl hy)))⟩
      · right
        rcases List.any_eq_true.mp hsch with ⟨kv, hkv, hbrk⟩
        refine ⟨kv.1, ["inputSchema"], ?_⟩
        rw [diffSnapshots_changes]
        refine List.mem_append.mpr (Or.inr ?_)
        exact List.mem_flatMap.mpr
          ⟨kv, hkv, (sharedBlock_changed_mem_iff _ kv).mpr hbrk⟩
    · intro h
      rcases h with ⟨n, hmem⟩ | ⟨n, fields, hmem⟩
      · rw [diffSnapshots_changes] at hmem
        rcases List.mem_append.mp hmem with hmem' | hsh
        · rcases List.mem_append.mp hmem' with hr | ha
          · have hne : (((indexTools a.tools).map Prod.fst).filterMap
                fun toolName => if mapHas (indexTools b.tools) toolName then none
                  else some (Change.tool_removed toolName)) ≠ [] :=
              List.ne_nil_of_mem hr
            refine Bool.or_eq_true_iff.mpr (Or.inl ?_)
            simpa [List.isEmpty_iff] using hne
          · rcases hshape_add _ ha with ⟨nm, h⟩
            cases h
        · rcases hshape_sh _ hsh with ⟨nm, h⟩ | ⟨nm, h⟩ <;> cases h
      · rw [diffSnapshots_changes] at hmem
        rcases List.mem_append.mp hmem with hmem' | hsh
        · rcases List.mem_append.mp hmem' with hr | ha
          · rcases hshape_rem _ hr with ⟨nm, h⟩
            cases h
          · rcases hshape_add _ ha with ⟨nm, h⟩
            cases h
        · refine Bool.or_eq_true_iff.mpr (Or.inr ?_)
          rcases List.mem_flatMap.mp hsh with ⟨kv, hkv, hx⟩
          rcases sharedBlock_shapes hx with h | h
          · cases h
          · refine List.any_eq_true.mpr ⟨kv, hkv, ?_⟩
            refine (sharedBlock_changed_mem_iff _ kv).mp ?_
            rw [← h]
            exact hx

/-! ## Infrastructure for claim C9 -/

/-- Two tools equal except possibly in the contents of dropped (volatile)
object keys inside their input schemas: same name, same description, and
schemas either both absent or hash-equivalent (which covers differences
confined to `retrievedAt` / `timestamp` keys at any depth).  The
well-formedness conjunct records that the right schema is a real JS object
tree (duplicate-free keys). -/
def toolEqModDropped (t1 t2 : McpToolDefinition) : Prop :=
  t1.name = t2.name ∧ t1.description = t2.description ∧
    ((t1.inputSchema = none ∧ t2.inputSchema = none) ∨
     (∃ s1 s2, t1.inputSchema = some s1 ∧ t2.inputSchema = some s2 ∧
       Json.HashEquiv s1 s2 ∧ Json.wfB s2 = true))

theorem toolEqModDropped_name {t1 t2 : McpToolDefinition}
    (h : toolEqModDropped t1 t2) : t1.name = t2.name := h.1

theorem toolJson_hashEquiv {t1 t2 : McpToolDefinition}
    (h : toolEqModDropped t1 t2) :
    Json.HashEquiv (toolJson t1) (toolJson t2) := by
  obtain ⟨hn, hd, hs⟩ := h
  obtain ⟨n1, d1, s1⟩ := t1
  obtain ⟨n2, d2, s2⟩ := t2
  simp only at hn hd
  subst hn
  subst hd
  rcases hs with ⟨h1, h2⟩ | ⟨x1, x2, h1, h2, heq, _⟩ <;>
    simp only at h1 h2 <;> subst h1 <;> subst h2 <;>
      cases d1 <;> refine Json.HashEquiv.obj ?_ (List.Perm.refl _)
  · exact .cons (.str n1) .nil
  · exact .cons (.str n1) (.cons (.str _) .nil)
  · exact .cons (.str n1) (.cons heq .nil)
  · exact .cons (.str n1) (.cons (.str _) (.cons heq .nil))

theorem toolJson_wf {t : McpToolDefinition}
    (h : ∀ s, t.inputSchema = some s → Json.wfB s = true) :
    Json.wfB (toolJson t) = true := by
  obtain ⟨n, d, s⟩ := t
  refine (Json.wfB_obj _).mpr ⟨?_, ?_⟩
  · cases d <;> cases s <;> simp [toolJson]
  · intro f hf
    rcases List.mem_append.mp hf with hf' | hf'
    · rcases List.mem_append.mp hf' with hf'' | hf''
      · simp at hf''
        subst hf''
        exact Json.wfB_str _
      · cases d with
        | none => simp at hf''
        | some dd =>
            simp at hf''
            subst hf''
            exact Json.wfB_str _
    · cases s with
      | none => simp at hf'
      | some ss =>
          simp at hf'
          subst hf'
          exact h _ rfl

theorem hashEquivList_of_forall₂ {ts1 ts2 : List McpToolDefinition}
    (h : List.Forall₂ toolEqModDropped ts1 ts2) :
    Json.HashEquivList (ts1.map toolJson) (ts2.map toolJson) := by
  induction h with
  | nil => exact .nil
  | cons h1 _ ih => exact .cons (toolJson_hashEquiv h1) ih

theorem snapshotHashInput_hashEquiv {n v : String}
    {ts1 ts2 : List McpToolDefinition}
    (h : List.Forall₂ toolEqModDropped ts1 ts2) :
    Json.HashEquiv (snapshotHashInput n v ts1) (snapshotHashInput n v ts2) := by
  refine Json.HashEquiv.obj ?_ (List.Perm.refl _)
  exact .cons (.str n) (.cons (.str v)
    (.cons (.arr (hashEquivList_of_forall₂ h)) .nil))

theorem snapshotHashInput_wf {n v : String} {ts : List McpToolDefinition}
    (h : ∀ t ∈ ts, ∀ s, t.inputSchema = some s → Json.wfB s = true) :
    Json.wfB (snapshotHashInput n v ts) = true := by
  refine (Json.wfB_obj _).mpr ⟨by simp [snapshotHashInput], ?_⟩
  intro f hf
  simp [snapshotHashInput] at hf
  rcases hf with hf | hf | hf
  · subst hf
    exact Json.wfB_str _
  · subst hf
    exact Json.wfB_str _
  · subst hf
    refine (Json.wfB_arr _).mpr ?_
    intro x hx
    rcases List.mem_map.mp hx with ⟨t, ht, rfl⟩
    exact toolJson_wf (h t ht)

theorem forall₂_append_single {α β : Type} {R : α → β → Prop}
    {l1 : List α} {l2 : List β} (h : List.Forall₂ R l1 l2) {a : α} {b : β}
    (hab : R a b) : List.Forall₂ R (l1 ++ [a]) (l2 ++ [b]) := by
  induction h with
  | nil => exact List.forall₂_cons.mpr ⟨hab, .nil⟩
  | cons h' _ ih => exact List.forall₂_cons.mpr ⟨h', ih⟩

theorem forall₂_keys_eq {R : McpToolDefinition → McpToolDefinition → Prop}
    {m1 m2 : List (String × McpToolDefinition)}
    (hm : List.Forall₂ (fun kv1 kv2 => kv1.1 = kv2.1 ∧ R kv1.2 kv2.2) m1 m2) :
    m1.map Prod.fst = m2.map Prod.fst := by
  induction hm with
  | nil => rfl
  | cons h _ ih => simp [h.1, ih]

theorem forall₂_mapSet {R : McpToolDefinition → McpToolDefinition → Prop}
    {m1 m2 : List (String × McpToolDefinition)} {t1 t2 : McpToolDefinition}
    (hname : t1.name = t2.name)
    (hm : List.Forall₂ (fun kv1 kv2 => kv1.1 = kv2.1 ∧ R kv1.2 kv2.2) m1 m2)
    (ht : R t1 t2) :
    List.Forall₂ (fun kv1 kv2 => kv1.1 = kv2.1 ∧ R kv1.2 kv2.2)
      (mapSet m1 t1.name t1) (mapSet m2 t2.name t2) := by
  have hkeys := forall₂_keys_eq hm
  have hany : (m1.any fun kv => kv.1 == t1.name) =
      (m2.any fun kv => kv.1 == t2.name) := by
    rw [List.any_eq, List.any_eq, ← hname]
    have h1 : ∀ (m : List (String × McpToolDefinition)),
        (m.any fun kv => kv.1 == t1.name) =
          ((m.map Prod.fst).any fun k => k == t1.name) := by
      intro m
      induction m with
      | nil => rfl
      | cons kv m ih => simp [List.any_cons, ih]
    rw [← List.any_eq, ← List.any_eq, h1, h1, hkeys]
  rw [mapSet, mapSet, ← hany]
  by_cases hhas : m1.any fun kv => kv.1 == t1.name
  · simp only [hhas, if_pos, ite_true]
    clear hany hkeys hhas
    induction hm with
    | nil => exact .nil
    | cons hkv hrest ih =>
        refine List.Forall₂.cons ?_ ih
        rename_i a1 a2 _ _
        by_cases hk : a1.1 == t1.name
        · have hk2 : a2.1 == t2.name := by
            rw [← hkv.1, ← hname]
            exact hk
          simp only [hk, hk2, if_pos, ite_true]
          exact ⟨hkv.1, ht⟩
        · have hk2 : ¬ a2.1 == t2.name := by
            rw [← hkv.1, ← hname]
            exact hk
          simp only [hk, hk2, if_neg, ite_false, Bool.false_eq_true,
            not_false_eq_true]
          exact hkv
  · simp only [hhas, Bool.false_eq_true, not_false_eq_true, if_neg, ite_false]
    exact forall₂_append_single hm ⟨hname, ht⟩

theorem indexTools_forall₂ {R : McpToolDefinition → McpToolDefinition → Prop}
    (hnames : ∀ t1 t2, R t1 t2 → t1.name = t2.name)
    {ts1 ts2 : List McpToolDefinition} (h : List.Forall₂ R ts1 ts2) :
    List.Forall₂ (fun kv1 kv2 => kv1.1 = kv2.1 ∧ R kv1.2 kv2.2)
      (indexTools ts1) (indexTools ts2) := by
  rw [indexTools, indexTools]
  suffices hgen : ∀ (m1 m2 : List (String × McpToolDefinition)),
      List.Forall₂ (fun kv1 kv2 => kv1.1 = kv2.1 ∧ R kv1.2 kv2.2) m1 m2 →
      List.Forall₂ (fun kv1 kv2 => kv1.1 = kv2.1 ∧ R kv1.2 kv2.2)
        (ts1.foldl (fun m t => mapSet m t.name t) m1)
        (ts2.foldl (fun m t => mapSet m t.name t) m2) by
    exact hgen [] [] .nil
  induction h with
  | nil => intro m1 m2 hm; exact hm
  | cons ht hrest ih =>
      intro m1 m2 hm
      rw [List.foldl_cons, List.foldl_cons]
      exact ih _ _ (forall₂_mapSet (hnames _ _ ht) hm ht)

theorem mapGet_mem_nodup {m : List (String × McpToolDefinition)}
    (hnd : (m.map Prod.fst).Nodup) {kv : String × McpToolDefinition}
    (hkv : kv ∈ m) : mapGet m kv.1 = some kv.2 := by
  induction m with
  | nil => cases hkv
  | cons a m ih =>
      obtain ⟨k, t⟩ := a
      rcases hkv with _ | hkv
      · rw [mapGet_cons]
        simp
      · have hk : k ∉ m.map Prod.fst := by
          simpa using (List.nodup_cons.mp hnd).1
        have hne : (k == kv.1) = false := by
          have : kv.1 ∈ m.map Prod.fst := List.mem_map_of_mem Prod.fst (by assumption)
          simp only [beq_eq_false_iff_ne, ne_eq]
          intro he
          exact hk (he ▸ this)
        rw [mapGet_cons, hne]
        simp only [Bool.false_eq_true, if_neg, ite_false, not_false_eq_true]
        exact ih (List.nodup_cons.mp hnd).2 (by assumption)

theorem mapGet_forall₂ {R : McpToolDefinition → McpToolDefinition → Prop}
    {m1 m2 : List (String × McpToolDefinition)}
    (hm : List.Forall₂ (fun kv1 kv2 => kv1.1 = kv2.1 ∧ R kv1.2 kv2.2) m1 m2)
    {k : String} {t1 : McpToolDefinition}
    (hget : mapGet m1 k = some t1) :
    ∃ t2, mapGet m2 k = some t2 ∧ R t1 t2 := by
  induction hm with
  | nil => cases hget
  | cons hkv hrest ih =>
      rename_i a1 a2 l1 l2
      obtain ⟨k1, b1⟩ := a1
      obtain ⟨k2, b2⟩ := a2
      have hk12 : k1 = k2 := hkv.1
      rw [mapGet_cons] at hget
      rw [mapGet_cons]
      by_cases hk : k1 == k
      · have hk2 : (k2 == k) = true := by
          rw [← hk12]
          exact hk
        rw [hk2]
        rw [hk] at hget
        simp only [ite_true, if_pos, Option.some.injEq] at hget ⊢
        exact ⟨b2, rfl, hget ▸ hkv.2⟩
      · have hk2 : (k2 == k) = false := by
          rw [← hk12]
          simpa using hk
        rw [hk2]
        rw [(by simpa using hk : (k1 == k) = false)] at hget
        simp only [Bool.false_eq_true, if_neg, ite_false,
          not_false_eq_true] at hget ⊢
        exact ih hget

theorem forall₂_wf_right {ts1 ts2 : List McpToolDefinition}
    (h : List.Forall₂ toolEqModDropped ts1 ts2) :
    ∀ t ∈ ts2, ∀ s, t.inputSchema = some s → Json.wfB s = true := by
  induction h with
  | nil => intro t ht; cases ht
  | cons h1 _ ih =>
      intro t ht s hs
      rcases ht with _ | ht
      · rcases h1.2.2 with ⟨_, h2⟩ | ⟨s1, s2, _, h2, _, hwf⟩
        · rw [h2] at hs
          cases hs
        · rw [h2] at hs
          injection hs with hs
          exact hs ▸ hwf
      · exact ih t (by assumption) s hs

theorem toolEqModDropped_canon {t1 t2 : McpToolDefinition}
    (h : toolEqModDropped t1 t2) :
    stableStringifyOpt t1.inputSchema = stableStringifyOpt t2.inputSchema := by
  rcases h.2.2 with ⟨h1, h2⟩ | ⟨s1, s2, h1, h2, heq, hwf⟩
  · rw [h1, h2]
  · rw [h1, h2]
    exact congrArg some
      (congrArg Json.stringify (Json.normalize_hashEquiv heq hwf))

/-! ## Claim C1 -/

/--
C1 (amended): the snapshot fingerprint is invariant under reordering of
object keys at any nesting depth and under arbitrary differences confined to
the dropped volatile keys (`retrievedAt` / `timestamp`), with the operation
list kept in its original order; and replacing one operation's input schema
by a schema whose canonical serialization differs changes the fingerprint
(the fingerprint being the SHA-256 digest of the canonical serialization,
modelled by the canonical string itself).  Permuting the operation list is
not fingerprint-invariant; see the counterexample.
-/
theorem C1_fingerprint_stability :
    (∀ a b : Json, Json.wfB b = true → Json.HashEquiv a b →
      fingerprint a = fingerprint b) ∧
    (∀ (n v : String) (pre post : List McpToolDefinition)
        (t1 t2 : McpToolDefinition) (s1 s2 : Json),
      t2.name = t1.name → t2.description = t1.description →
      t1.inputSchema = some s1 → t2.inputSchema = some s2 →
      stableStringify s1 ≠ stableStringify s2 →
      fingerprintFromTools n v (pre ++ t1 :: post) ≠
        fingerprintFromTools n v (pre ++ t2 :: post)) := by
  constructor
  · intro a b hwf h
    exact congrArg Json.stringify (Json.normalize_hashEquiv h hwf)
  · exact fun n v pre post t1 t2 s1 s2 hn hd h1 h2 hs =>
      fingerprint_schema_sensitive n v pre post t1 t2 s1 s2 hn hd h1 h2 hs

/--
C1 counterexample: two snapshots holding the same operations and schemas but
with the operation list permuted get different fingerprints, refuting the
claimed invariance under "permutation of the operation list"
(`normalizeForHash` recurses into arrays element-wise without sorting them).
-/
theorem C1_counterexample :
    (List.Perm
      ([⟨"a", none, none⟩, ⟨"b", none, none⟩] : List McpToolDefinition)
      ([⟨"b", none, none⟩, ⟨"a", none, none⟩] : List McpToolDefinition)) ∧
    fingerprintFromTools "svc" "1.0"
        [⟨"a", none, none⟩, ⟨"b", none, none⟩] ≠
      fingerprintFromTools "svc" "1.0"
        [⟨"b", none, none⟩, ⟨"a", none, none⟩] := by
  constructor
  · exact List.Perm.swap _ _ _
  · simp [fingerprintFromTools, fingerprint, stableStringify, snapshotHashInput,
      toolJson, Json.normalizeForHash_obj, Json.normalizeForHash_arr,
      Json.normalizeForHash, Json.sortFields, Json.orderedInsertF, Json.keyLeb,
      Json.strLeb, Json.charListLeb, Json.droppedKey, Json.stringify_obj,
      Json.stringify_arr, Json.stringify, Json.quoteStr, Json.escChar,
      String.join, Json.joinComma]

/-- C1 witness: the stability theorem applied at a concrete key-reordered,
timestamp-rewritten object and at a concrete one-tool schema change. -/
theorem C1_witness :
    fingerprint
        (Json.obj [("b", .num 1), ("timestamp", .str "t1"), ("a", .num 2)]) =
      fingerprint
        (Json.obj [("a", .num 2), ("b", .num 1), ("timestamp", .str "t2")]) ∧
    fingerprintFromTools "s" "1"
        [⟨"x", none, some (.obj [("type", .str "string")])⟩] ≠
      fingerprintFromTools "s" "1"
        [⟨"x", none, some (.obj [("type", .str "number")])⟩] := by
  constructor
  · refine C1_fingerprint_stability.1 _ _ ?_ ?_
    · refine (Json.wfB_obj _).mpr ⟨by decide, ?_⟩
      intro f hf
      fin_cases hf <;> simp [Json.wfB_num, Json.wfB_str]
    · refine @Json.HashEquiv.obj _
        [("b", .num 1), ("timestamp", .str "t2"), ("a", .num 2)] _
        ?_ ?_
      · exact .cons (.num 1) (.consDrop rfl (.cons (.num 2) .nil))
      · exact (List.Perm.cons _ (List.Perm.swap _ _ _)).trans
          (List.Perm.swap _ _ _)
  · refine C1_fingerprint_stability.2 "s" "1" [] []
      ⟨"x", none, some (.obj [("type", .str "string")])⟩
      ⟨"x", none, some (.obj [("type", .str "number")])⟩
      (.obj [("type", .str "string")]) (.obj [("type", .str "number")])
      rfl rfl rfl rfl ?_
    simp [stableStringify, Json.normalizeForHash_obj, Json.normalizeForHash,
      Json.sortFields, Json.orderedInsertF, Json.keyLeb, Json.strLeb,
      Json.charListLeb, Json.droppedKey, Json.stringify_obj, Json.stringify,
      Json.quoteStr, Json.escChar, String.join, Json.joinComma]

/-! ## Claim C9 -/

/--
C9: the canonical normalization drops every object key named `retrievedAt` or
`timestamp` (shown for each object node; the recursion carries it to every
nesting depth, including inside a tool's `inputSchema`); consequently two
snapshots that differ only in the contents of such keys — same names, same
descriptions, input schemas hash-equivalent — receive identical fingerprints
and an empty, non-breaking diff, so such a schema change is invisible to both
drift checking and breaking-change classification.
-/
theorem C9_dropped_keys_undetectable :
    (∀ fs : List (String × Json), ∃ gs,
      Json.normalizeForHash (.obj fs) = .obj gs ∧
        ∀ f ∈ gs, Json.droppedKey f.1 = false) ∧
    (∀ oldS newS : IntrospectedServer,
      oldS.serverName = newS.serverName → oldS.version = newS.version →
      List.Forall₂ toolEqModDropped oldS.tools newS.tools →
      fingerprintFromTools oldS.serverName oldS.version oldS.tools =
        fingerprintFromTools newS.serverName newS.version newS.tools ∧
      diffSnapshots oldS newS = ⟨false, []⟩) := by
  constructor
  · intro fs
    refine ⟨((Json.sortFields fs).filter fun f => !Json.droppedKey f.1).map
      (fun f => (f.1, Json.normalizeForHash f.2)), Json.normalizeForHash_obj fs, ?_⟩
    intro f hf
    rcases List.mem_map.mp hf with ⟨g, hg, rfl⟩
    have := List.of_mem_filter hg
    simpa using this
  · intro oldS newS hsn hsv hrel
    have hwfall := forall₂_wf_right hrel
    constructor
    · rw [hsn, hsv]
      exact congrArg Json.stringify
        (Json.normalize_hashEquiv (snapshotHashInput_hashEquiv hrel)
          (snapshotHashInput_wf hwfall))
    · have hidx := indexTools_forall₂ (fun _ _ h => toolEqModDropped_name h) hrel
      have hkeys := forall₂_keys_eq hidx
      have hndo := indexTools_keys_nodup oldS.tools
      have hremoved : (((indexTools oldS.tools).map Prod.fst).filterMap
          fun toolName => if mapHas (indexTools newS.tools) toolName then none
            else some (Change.tool_removed toolName)) = [] := by
        rw [List.filterMap_eq_nil_iff]
        intro k hk
        have : mapHas (indexTools newS.tools) k = true :=
          (mapHas_iff _ _).mpr (hkeys ▸ hk)
        simp [this]
      have hadded : (((indexTools newS.tools).map Prod.fst).filterMap
          fun toolName => if mapHas (indexTools oldS.tools) toolName then none
            else some (Change.tool_added toolName)) = [] := by
        rw [List.filterMap_eq_nil_iff]
        intro k hk
        have : mapHas (indexTools oldS.tools) k = true :=
          (mapHas_iff _ _).mpr (hkeys ▸ hk)
        simp [this]
      have hshared : ((indexTools oldS.tools).flatMap
          (sharedBlock (indexTools newS.tools))) = [] := by
        rw [List.flatMap_eq_nil_iff]
        intro kv hkv
        obtain ⟨t2, hget, hr⟩ :=
          mapGet_forall₂ hidx (mapGet_mem_nodup hndo hkv)
        rw [sharedBlock, hget]
        have hd : kv.2.description.getD "" = t2.description.getD "" := by
          rw [hr.2.1]
        have hs := toolEqModDropped_canon hr
        simp [hd, hs]
      have hbrk : ((indexTools oldS.tools).any
          (sharedBreaking (indexTools newS.tools))) = false := by
        rw [List.any_eq_false]
        intro kv hkv
        obtain ⟨t2, hget, hr⟩ :=
          mapGet_forall₂ hidx (mapGet_mem_nodup hndo hkv)
        rw [sharedBreaking, hget]
        have hs := toolEqModDropped_canon hr
        simp [hs]
      have hfields : diffSnapshots oldS newS =
          ⟨(diffSnapshots oldS newS).breaking,
           (diffSnapshots oldS newS).changes⟩ := rfl
      rw [hfields, diffSnapshots_breaking, diffSnapshots_changes,
        hremoved, hadded, hshared, hbrk]
      rfl

/-- C9 witness: a schema change confined to a schema property named
`timestamp` leaves the fingerprint unchanged and the diff empty. -/
theorem C9_witness :
    fingerprintFromTools "svc" "1"
        [⟨"x", some "d",
          some (.obj [("timestamp", .num 1), ("type", .str "string")])⟩] =
      fingerprintFromTools "svc" "1"
        [⟨"x", some "d",
          some (.obj [("timestamp", .num 2), ("type", .str "string")])⟩] ∧
    diffSnapshots
        ⟨"svc", "1", "r1",
          [⟨"x", some "d",
            some (.obj [("timestamp", .num 1), ("type", .str "string")])⟩]⟩
        ⟨"svc", "1", "r2",
          [⟨"x", some "d",
            some (.obj [("timestamp", .num 2), ("type", .str "string")])⟩]⟩ =
      ⟨false, []⟩ := by
  have h := C9_dropped_keys_undetectable.2
    ⟨"svc", "1", "r1",
      [⟨"x", some "d",
        some (.obj [("timestamp", .num 1), ("type", .str "string")])⟩]⟩
    ⟨"svc", "1", "r2",
      [⟨"x", some "d",
        some (.obj [("timestamp", .num 2), ("type", .str "string")])⟩]⟩
    rfl rfl
    (by
      refine List.forall₂_cons.mpr ⟨⟨rfl, rfl, Or.inr ?_⟩, .nil⟩
      refine ⟨.obj [("timestamp", .num 1), ("type", .str "string")],
        .obj [("timestamp", .num 2), ("type", .str "string")], rfl, rfl, ?_, ?_⟩
      · exact Json.HashEquiv.obj
          (.consDrop rfl (.cons (.str _) .nil)) (List.Perm.refl _)
      · refine (Json.wfB_obj _).mpr ⟨by simp, ?_⟩
        intro f hf
        fin_cases hf <;> simp [Json.wfB_num, Json.wfB_str])
  exact h

/-! ## Credential resolver and transport selection -/

/-- JS-style whitespace test used by `trim()`. -/
def isWs (c : Char) : Bool :=
  c == ' ' || c == '\t' || c == '\n' || c == '\r'

/-- JS `String.prototype.trim`: strip leading and trailing whitespace. -/
def trimStr (s : String) : String :=
  String.mk (((s.data.dropWhile isWs).reverse.dropWhile isWs).reverse)

/-- Auth descriptor (`AuthConfig` of `src/auth/schema.ts`; the file is not
under `src/`, its shape is fixed by its unit tests and callers:
`{type: "none"} | {type: "bearer", tokenEnv}`). -/
inductive AuthConfig where
  | none : AuthConfig
  | bearer (tokenEnv : String) : AuthConfig

/-- `AuthResult`: `{status:"none"} | {status:"resolved",token} |
{status:"missing",envVar}`. -/
inductive AuthResult where
  | none : AuthResult
  | resolved (token : String) : AuthResult
  | missing (envVar : String) : AuthResult
deriving DecidableEq

/-- Modelled from the spec: `resolveAuth` of `src/auth/resolver.ts` is not
under `src/`; spec §4.1 gives its rules — no descriptor or a `none` descriptor
⇒ `none`; a bearer descriptor whose environment variable is unset, empty or
whitespace-only ⇒ `missing(envVar)`; otherwise `resolved(trimmedValue)` —
in agreement with its unit tests.  The process environment is passed as a
lookup function. -/
def resolveAuth (env : String → Option String) :
    Option AuthConfig → AuthResult
  | Option.none => .none
  | some .none => .none
  | some (.bearer tokenEnv) =>
      match env tokenEnv with
      | Option.none => .missing tokenEnv
      | some v =>
          if (trimStr v).isEmpty then .missing tokenEnv
          else .resolved (trimStr v)

/-- Transport entry of a server config (`toolboxServerConfigSchema` plus the
optional `auth` descriptor read by `syncCommand` and
`chooseTransportRuntime`). -/
inductive TransportCfg where
  | http (url : String) (auth : Option AuthConfig) : TransportCfg
  | stdio (command : String) (args : List String)
      (env : List (String × String)) (auth : Option AuthConfig) : TransportCfg

/-- `ToolboxServerConfig`: `name` plus transport. -/
structure ToolboxServerConfig where
  name : String
  transport : TransportCfg

def TransportCfg.auth : TransportCfg → Option AuthConfig
  | .http _ a => a
  | .stdio _ _ _ a => a

/-- `buildStdioEnv` from `packages/mcp-toolbox-runtime/src/env.ts`: start from
the allow-listed (trimmed, non-empty) base-environment variables, then layer
the transport's env entries, then the overrides, later writes winning. -/
def buildStdioEnv (allowlist : List String) (baseEnv : String → Option String)
    (transportEnv : List (String × String))
    (overrides : List (String × String)) : String → Option String :=
  let allow := (allowlist.map trimStr).filter fun k => !k.isEmpty
  let base : String → Option String := fun k =>
    if k ∈ allow then baseEnv k else Option.none
  let withTransport := transportEnv.foldl
    (fun e kv => fun k => if k = kv.1 then some kv.2 else e k) base
  overrides.foldl
    (fun e kv => fun k => if k = kv.1 then some kv.2 else e k) withTransport

/-- A constructed transport handle.  Constructing the stdio handle is what
later spawns the child process, so the handle records the spawned command. -/
inductive TransportHandle where
  | streamableHttp (url : String)
      (headers : List (String × String)) : TransportHandle
  | stdio (command : String) (args : List String)
      (env : String → Option String) : TransportHandle

/-- Commands a constructed transport hands to a child-process spawn: a policy
error constructs no transport, so nothing can be spawned. -/
def spawnsOf : Except String TransportHandle → List String
  | .error _ => []
  | .ok (.streamableHttp _ _) => []
  | .ok (.stdio c _ _) => [c]

/-- `chooseTransport` from `src/introspect/introspectServer.ts`: http configs
get a streamable-HTTP transport; stdio configs are refused while
`security.allowStdioExec` is false, otherwise a stdio transport is built with
the allow-listed environment plus the noise-suppressing overrides. -/
def chooseTransport (serverConfig : ToolboxServerConfig)
    (allowStdioExec : Bool) (envAllowlist : List String)
    (baseEnv : String → Option String) : Except String TransportHandle :=
  match serverConfig.transport with
  | .http url _ => .ok (.streamableHttp url [])
  | .stdio command args env _ =>
      if !allowStdioExec then
        .error ("Refusing to run stdio server '" ++ serverConfig.name ++
          "' because security.allowStdioExec=false. Set security.allowStdioExec=true to enable stdio execution.")
      else
        .ok (.stdio command args
          (buildStdioEnv envAllowlist baseEnv env
            [("DEBUG", ""),
             ("NODE_ENV", (baseEnv "NODE_ENV").getD "production"),
             ("npm_config_loglevel", "error"),
             ("NPM_CONFIG_LOGLEVEL", "error"),
             ("PNPM_LOG_LEVEL", "error")]))

/-- `chooseTransportRuntime` from
`packages/mcp-toolbox-runtime/src/index.ts` (`callMcpTool`'s transport
factory): http gets a bearer header when auth resolves; stdio is refused
while `security.allowStdioExec` is false, otherwise the resolved token is
passed through the environment variable the server expects. -/
def chooseTransportRuntime (allowStdioExec : Bool)
    (envAllowlist : List String) (baseEnv : String → Option String)
    (serverCfg : ToolboxServerConfig) : Except String TransportHandle :=
  match serverCfg.transport with
  | .http url auth =>
      let headers :=
        match resolveAuth baseEnv auth with
        | .resolved token => [("Authorization", "Bearer " ++ token)]
        | _ => []
      .ok (.streamableHttp url headers)
  | .stdio command args env auth =>
      if !allowStdioExec then
        .error ("mcp-toolbox: stdio disabled (security.allowStdioExec=false) for "
          ++ serverCfg.name)
      else
        let authEnv :=
          match resolveAuth baseEnv auth, auth with
          | .resolved token, some (.bearer tokenEnv) => [(tokenEnv, token)]
          | _, _ => []
        .ok (.stdio command args
          (buildStdioEnv envAllowlist baseEnv (env ++ authEnv) []))

/-! ## Claim C3 -/

/--
C3: the credential resolver returns `none` when the descriptor is absent or
of type `none`; `missing(envVar)` when a bearer descriptor names an
environment variable that is unset, empty, or whitespace-only; and
`resolved` with the trimmed value otherwise.
-/
theorem C3_resolveAuth_spec (env : String → Option String) :
    resolveAuth env Option.none = .none ∧
    resolveAuth env (some .none) = .none ∧
    (∀ e, env e = Option.none →
      resolveAuth env (some (.bearer e)) = .missing e) ∧
    (∀ e v, env e = some v → (trimStr v).isEmpty = true →
      resolveAuth env (some (.bearer e)) = .missing e) ∧
    (∀ e v, env e = some v → (trimStr v).isEmpty = false →
      resolveAuth env (some (.bearer e)) = .resolved (trimStr v)) := by
  refine ⟨rfl, rfl, ?_, ?_, ?_⟩
  · intro e he
    simp [resolveAuth, he]
  · intro e v he hv
    simp [resolveAuth, he, hv]
  · intro e v he hv
    simp [resolveAuth, he, hv]

/-- C3 witness: the resolver rules at a concrete environment
(`TEST_TOKEN =" my-secret-token "`, `EMPTY = "   "`, `UNSET` absent). -/
theorem C3_witness :
    resolveAuth
        (fun k => if k = "TEST_TOKEN" then some " my-secret-token "
          else if k = "EMPTY" then some "   " else Option.none)
        (some (.bearer "TEST_TOKEN")) = .resolved "my-secret-token" ∧
    resolveAuth
        (fun k => if k = "TEST_TOKEN" then some " my-secret-token "
          else if k = "EMPTY" then some "   " else Option.none)
        (some (.bearer "EMPTY")) = .missing "EMPTY" ∧
    resolveAuth
        (fun k => if k = "TEST_TOKEN" then some " my-secret-token "
          else if k = "EMPTY" then some "   " else Option.none)
        (some (.bearer "UNSET")) = .missing "UNSET" := by
  refine ⟨?_, ?_, ?_⟩
  · have h := (C3_resolveAuth_spec
      (fun k => if k = "TEST_TOKEN" then some " my-secret-token "
        else if k = "EMPTY" then some "   " else Option.none)).2.2.2.2
      "TEST_TOKEN" " my-secret-token " (by decide) (by decide)
    rw [h]
    decide
  · exact (C3_resolveAuth_spec _).2.2.2.1 "EMPTY" "   " (by decide) (by decide)
  · exact (C3_resolveAuth_spec _).2.2.1 "UNSET" (by decide)

/-! ## Claim C4 -/

/--
C4: for every service configured with a stdio transport, if `allowStdioExec`
is false then both transport selectors fail with a policy error naming the
service, and no transport handle — hence no child process — is produced; this
holds for any environment and allow-list.
-/
theorem C4_stdio_policy (cfg : ToolboxServerConfig) (command : String)
    (args : List String) (env : List (String × String))
    (auth : Option AuthConfig) (envAllowlist : List String)
    (baseEnv : String → Option String)
    (hstdio : cfg.transport = .stdio command args env auth) :
    (∃ msg, chooseTransport cfg false envAllowlist baseEnv = .error msg ∧
      ∃ pre suf, msg = pre ++ cfg.name ++ suf) ∧
    spawnsOf (chooseTransport cfg false envAllowlist baseEnv) = [] ∧
    (∃ msg, chooseTransportRuntime false envAllowlist baseEnv cfg =
        .error msg ∧ ∃ pre suf, msg = pre ++ cfg.name ++ suf) ∧
    spawnsOf (chooseTransportRuntime false envAllowlist baseEnv cfg) = [] := by
  refine ⟨⟨"Refusing to run stdio server '" ++ cfg.name ++
      "' because security.allowStdioExec=false. Set security.allowStdioExec=true to enable stdio execution.",
      ?_,
      "Refusing to run stdio server '",
      "' because security.allowStdioExec=false. Set security.allowStdioExec=true to enable stdio execution.",
      rfl⟩, ?_,
    ⟨"mcp-toolbox: stdio disabled (security.allowStdioExec=false) for " ++
      cfg.name, ?_,
      "mcp-toolbox: stdio disabled (security.allowStdioExec=false) for ", "",
      ?_⟩, ?_⟩
  · simp [chooseTransport, hstdio]
  · simp [chooseTransport, hstdio, spawnsOf]
  · simp [chooseTransportRuntime, hstdio]
  · simp
  · simp [chooseTransportRuntime, hstdio, spawnsOf]

/-- C4 witness: the policy refusal at a concrete stdio service named `fs`. -/
theorem C4_witness :
    (∃ msg, chooseTransport ⟨"fs", .stdio "npx" ["-y", "srv"] [] Option.none⟩
        false [] (fun _ => Option.none) = .error msg ∧
      ∃ pre suf, msg = pre ++ "fs" ++ suf) ∧
    spawnsOf (chooseTransport ⟨"fs", .stdio "npx" ["-y", "srv"] [] Option.none⟩
      false [] (fun _ => Option.none)) = [] ∧
    (∃ msg, chooseTransportRuntime false [] (fun _ => Option.none)
        ⟨"fs", .stdio "npx" ["-y", "srv"] [] Option.none⟩ = .error msg ∧
      ∃ pre suf, msg = pre ++ "fs" ++ suf) ∧
    spawnsOf (chooseTransportRuntime false [] (fun _ => Option.none)
      ⟨"fs", .stdio "npx" ["-y", "srv"] [] Option.none⟩) = [] :=
  C4_stdio_policy ⟨"fs", .stdio "npx" ["-y", "srv"] [] Option.none⟩
    "npx" ["-y", "srv"] [] Option.none [] (fun _ => Option.none) rfl

/-! ## Code generator naming (`src/codegen/ts/names.ts` /
`generateServer.ts`, bundled in `dist/bin.js`) -/

/-- `[a-zA-Z0-9]` as matched by the split regex of `toCamelCase`. -/
def isAlnum (c : Char) : Bool :=
  if 97 ≤ c.toNat ∧ c.toNat ≤ 122 then true
  else if 65 ≤ c.toNat ∧ c.toNat ≤ 90 then true
  else if 48 ≤ c.toNat ∧ c.toNat ≤ 57 then true
  else false

/-- `name.split(/[^a-zA-Z0-9]+/g).filter(Boolean)`: the maximal alphanumeric
runs of the name, in order (`acc` holds the current run reversed). -/
def splitRuns : List Char → List Char → List String
  | [], acc => if acc.isEmpty then [] else [String.mk acc.reverse]
  | c :: cs, acc =>
      if isAlnum c then splitRuns cs (c :: acc)
      else if acc.isEmpty then splitRuns cs []
      else String.mk acc.reverse :: splitRuns cs []

def alnumRuns (s : String) : List String := splitRuns s.data []

/-- JS `toLowerCase` on the ASCII names handled here. -/
def lowerStr (s : String) : String := String.mk (s.data.map Char.toLower)

/-- `p.slice(0, 1).toUpperCase() + p.slice(1).toLowerCase()`. -/
def capPart (p : String) : String :=
  match p.data with
  | [] => ""
  | c :: rest => String.mk (c.toUpper :: rest.map Char.toLower)

/-- `toCamelCase` from `src/codegen/ts/names.ts`. -/
def toCamelCase (name : String) : String :=
  match alnumRuns name with
  | [] => "tool"
  | first :: rest =>
      if first.isEmpty then "tool"
      else lowerStr first ++ String.join (rest.map capPart)

/-- `toPascalCase` from `src/codegen/ts/names.ts`. -/
def toPascalCase (name : String) : String :=
  match (toCamelCase name).data with
  | [] => ""
  | c :: rest => String.mk (c.toUpper :: rest)

/-- The per-tool function-name assignment loop of `generateServerTs`:
`usedNames` is the JS `Map` of base-name occurrence counts (modelled as a
function), the n-th repetition of a base (n ≥ 1) gets the suffix `__(n+1)`. -/
def assignFnNamesAux (used : String → Nat) : List String → List String
  | [] => []
  | name :: rest =>
      let baseFn := toCamelCase name
      let n := used baseFn
      let fnName := if n = 0 then baseFn
        else baseFn ++ "__" ++ toString (n + 1)
      fnName :: assignFnNamesAux
        (fun s => if s = baseFn then n + 1 else used s) rest

def assignFnNames (names : List String) : List String :=
  assignFnNamesAux (fun _ => 0) names

/-- The re-export lines `generateServerTs` writes into the service's
`index.ts`, one per tool in list order. -/
def serverIndexExports (toolNames : List String) : List String :=
  (assignFnNames toolNames).map fun fnName =>
    "export * from \"./tools/" ++ fnName ++ "\";"

theorem mapIdx_eq_of_eq_on {α β : Type} (l : List α) (f g : Nat → α → β)
    (h : ∀ (i : Nat) (hi : i < l.length), f i l[i] = g i l[i]) :
    l.mapIdx f = l.mapIdx g := by
  induction l generalizing f g with
  | nil => rfl
  | cons a l ih =>
      rw [List.mapIdx_cons, List.mapIdx_cons]
      congr 1
      · exact h 0 (by simp)
      · exact ih _ _ fun i hi => h (i + 1) (by simpa using hi)

theorem assignFnNamesAux_spec (names : List String) :
    ∀ used : String → Nat,
    assignFnNamesAux used names = names.mapIdx (fun i name =>
      let b := toCamelCase name
      let k := used b + ((names.take i).countP fun m => toCamelCase m == b)
      if k = 0 then b else b ++ "__" ++ toString (k + 1)) := by
  induction names with
  | nil => intro used; rfl
  | cons name rest ih =>
      intro used
      rw [assignFnNamesAux, List.mapIdx_cons]
      refine congrArg₂ List.cons ?_ ?_
      · simp
      · rw [ih]
        apply mapIdx_eq_of_eq_on
        intro i hi
        simp only
        have htake : (name :: rest).take (i + 1) = name :: rest.take i := rfl
        rw [htake, List.countP_cons]
        by_cases hb : toCamelCase name = toCamelCase rest[i]
        · rw [← hb]
          simp only [eq_self_iff_true, if_pos, ite_true, beq_self_eq_true]
          have h1 : used (toCamelCase name) + 1 +
              List.countP (fun m => toCamelCase m == toCamelCase name)
                (rest.take i) ≠ 0 := by
            omega
          have h2 : used (toCamelCase name) +
              (List.countP (fun m => toCamelCase m == toCamelCase name)
                (rest.take i) + 1) ≠ 0 := by
            omega
          rw [if_neg h1, if_neg h2]
          congr 2
          omega
        · have hcond : ¬ toCamelCase rest[i] = toCamelCase name :=
            fun he => hb he.symm
          have hbeq : (toCamelCase name == toCamelCase rest[i]) =
              false := by
            simpa using hb
          simp [hcond, hbeq]

/-! ## Claim C7 -/

/--
C7: each generated identifier is obtained by collapsing non-alphanumeric runs
of the operation name into camel-case boundaries; processing the list in
original order, the k-th repetition (k ≥ 1) of an already-used base
identifier receives the deterministic suffix `__(k+1)` (the closed form of
the assignment loop is a pure function of the name list, so repeated runs on
the same input order give identical output); in particular `get-user` and
`get_user` yield `getUser` and `getUser__2`, each re-exported exactly once
from the service's aggregation file.
-/
theorem C7_codegen_naming :
    (∀ names : List String, assignFnNames names = names.mapIdx (fun i name =>
      let b := toCamelCase name
      let k := (names.take i).countP fun m => toCamelCase m == b
      if k = 0 then b else b ++ "__" ++ toString (k + 1))) ∧
    toCamelCase "get-user" = "getUser" ∧
    toCamelCase "get_user" = "getUser" ∧
    assignFnNames ["get-user", "get_user"] = ["getUser", "getUser__2"] ∧
    serverIndexExports ["get-user", "get_user"] =
      ["export * from \"./tools/getUser\";",
       "export * from \"./tools/getUser__2\";"] ∧
    (serverIndexExports ["get-user", "get_user"]).count
      "export * from \"./tools/getUser\";" = 1 ∧
    (serverIndexExports ["get-user", "get_user"]).count
      "export * from \"./tools/getUser__2\";" = 1 := by
  refine ⟨?_, by decide, by decide, by decide, by decide, by decide, by decide⟩
  intro names
  rw [assignFnNames, assignFnNamesAux_spec]
  apply mapIdx_eq_of_eq_on
  intro i hi
  simp

/-! ## Sync orchestrator (`syncCommand` / `processServer` in
`src/commands/sync.ts`)

The orchestrator's file-system effects are modelled as an explicit list of
write events; reading the committed snapshot, metadata, and the live
introspection result are modelled as per-server inputs (`ServerWorld`).  The
model covers the non-CI code path: the `isCI && checkOnly` shortcut that only
verifies already-generated code is out of scope, and `skipMissingAuth` stands
for the derived `shouldSkipMissingAuth` (the flag or a detected CI
environment). -/

/-- A thrown introspection error together with its `isAuthError`
classification (the orchestrator consumes only this boolean). -/
structure IntroError where
  message : String
  isAuth : Bool

/-- The committed `latest.meta.json` fields read by `processServer` (only the
fingerprint is consulted). -/
structure SnapshotMeta where
  schemaFingerprint : String

/-- Per-server inputs of one sync run: the configuration, the previously
committed snapshot and metadata (absent on a first run), and the outcome of
live introspection. -/
structure ServerWorld where
  cfg : ToolboxServerConfig
  oldSnap : Option IntrospectedServer
  oldMeta : Option SnapshotMeta
  introspection : Except IntroError IntrospectedServer

/-- `slugifyServerName` from `src/lib/slug.ts`: non-alphanumeric runs become
`-`, leading/trailing dashes are stripped, the result is lower-cased. -/
def slugifyServerName (serverName : String) : String :=
  lowerStr (String.intercalate "-" (alnumRuns serverName))

/-- One file-system write performed by the sync pipeline.  The pipeline never
deletes: there is deliberately no removal event, matching the code, so
previously generated files always remain on disk. -/
inductive WriteEvent where
  | reportWrite (serverSlug : String) : WriteEvent
  | snapshotLatest (serverSlug : String) : WriteEvent
  | snapshotHistorical (serverSlug : String) : WriteEvent
  | snapshotMeta (serverSlug : String) (schemaFingerprint : String) : WriteEvent
  | toolFile (serverSlug : String) (fnName : String) : WriteEvent
  | serverIndex (serverSlug : String) (exports : List String) : WriteEvent
  | catalogWrite (entries : List (String × String)) : WriteEvent
  | readmeWrite : WriteEvent
  | scriptsWrite : WriteEvent

/-- A queued breaking-change notice. -/
structure BreakingChange where
  serverName : String
  oldVersion : String
  newVersion : String

/-- A catalog entry collected for a successfully synced server. -/
structure CatalogEntry where
  serverSlug : String
  serverName : String
  snapshot : IntrospectedServer

/-- `ServerResult` of `processServer`. -/
inductive ServerResult where
  | checked (serverName : String) (changed : Bool) : ServerResult
  | success (serverName serverSlug : String) (toolsCount : Nat)
      (snapshot : IntrospectedServer)
      (breakingChange : Option BreakingChange) : ServerResult

/-- The write events of `writeLatestSnapshot` (`src/snapshot/writeSnapshot.ts`):
current snapshot, timestamped historical copy, and metadata carrying the
fingerprint. -/
def snapshotEvents (serverSlug : String) (snap : IntrospectedServer) :
    List WriteEvent :=
  [.snapshotLatest serverSlug, .snapshotHistorical serverSlug,
   .snapshotMeta serverSlug
     (fingerprintFromTools snap.serverName snap.version snap.tools)]

/-- The write events of `generateServerTs`: one tool wrapper file per
operation (collision-resolved names, original order) and the aggregation
`index.ts`. -/
def generateEvents (serverSlug : String) (snap : IntrospectedServer) :
    List WriteEvent :=
  ((assignFnNames (snap.tools.map McpToolDefinition.name)).map
    (WriteEvent.toolFile serverSlug)) ++
  [.serverIndex serverSlug
    (serverIndexExports (snap.tools.map McpToolDefinition.name))]

/-- `processServer` from `src/commands/sync.ts` as a pure function from the
per-server world to a result plus write events: validate the name, read the
committed state, introspect, compute the fingerprint-drift flag; in check
mode stop there with no writes; otherwise write a diff report when a previous
snapshot exists and the diff is non-empty (queueing a breaking-change notice
when it is breaking), then write the new snapshot and regenerate the
artifacts in full. -/
def processServer (checkOnly : Bool) (w : ServerWorld) :
    Except IntroError (ServerResult × List WriteEvent) :=
  if w.cfg.name.isEmpty then
    .error ⟨"Server has invalid or missing name: " ++ w.cfg.name, false⟩
  else
    match w.introspection with
    | .error e => .error e
    | .ok newSnap =>
        let serverSlug := slugifyServerName w.cfg.name
        let newFingerprintCandidate :=
          fingerprintFromTools newSnap.serverName newSnap.version newSnap.tools
        let changed :=
          match w.oldMeta with
          | some meta =>
              if meta.schemaFingerprint.isEmpty then true
              else decide (meta.schemaFingerprint ≠ newFingerprintCandidate)
          | none => true
        if checkOnly then
          .ok (.checked w.cfg.name changed, [])
        else
          let reportAndBreaking :
              List WriteEvent × Option BreakingChange :=
            match w.oldSnap with
            | none => ([], Option.none)
            | some oldSnap =>
                let d := diffSnapshots oldSnap newSnap
                if d.changes.isEmpty then ([], Option.none)
                else
                  ([.reportWrite serverSlug],
                   if d.breaking then
                     some ⟨w.cfg.name, oldSnap.version, newSnap.version⟩
                   else Option.none)
          .ok (.success w.cfg.name serverSlug newSnap.tools.length newSnap
                reportAndBreaking.2,
            reportAndBreaking.1 ++ snapshotEvents serverSlug newSnap ++
              generateEvents serverSlug newSnap)

/-- The options of one `sync` invocation: `--yes`, `--check`, the derived
skip-missing-auth flag, and the answer the interactive confirmation prompt
would receive. -/
structure SyncOptions where
  nonInteractive : Bool
  checkOnly : Bool
  skipMissingAuth : Bool
  confirmResponse : Bool

/-- `SyncResults` of `syncCommand`. -/
structure SyncResults where
  successful : List (String × Nat)
  failed : List (String × String)
  skipped : List (String × String)
  breakingChanges : List BreakingChange
  catalogEntries : List CatalogEntry
  anyOutOfSync : Bool

/-- The missing-credential skip check at the top of the server loop
(`resolveAuth(...).status === "missing" && shouldSkipMissingAuth`), together
with the recorded skip reason. -/
def skippedOf (opts : SyncOptions) (env : String → Option String)
    (w : ServerWorld) : Option (String × String) :=
  match resolveAuth env w.cfg.transport.auth with
  | .missing envVar =>
      if opts.skipMissingAuth then
        some (w.cfg.name, "Missing auth token: " ++ envVar)
      else Option.none
  | _ => Option.none

/-- One iteration of the server loop of `syncCommand`: skip on missing auth
when configured, otherwise process the server, translating a thrown error
into a per-server failed outcome (with an authentication prefix when the
classifier fires) and a result into the corresponding bucket; the breaking
change is queued only in interactive mode. -/
def syncStep (opts : SyncOptions) (env : String → Option String)
    (acc : SyncResults × List WriteEvent) (w : ServerWorld) :
    SyncResults × List WriteEvent :=
  let results := acc.1
  let writes := acc.2
  match skippedOf opts env w with
  | some entry =>
      ({ results with skipped := results.skipped ++ [entry] }, writes)
  | Option.none =>
      match processServer opts.checkOnly w with
      | .error e =>
          if e.isAuth then
            ({ results with
                failed := results.failed ++
                  [(w.cfg.name, "Authentication failed: " ++ e.message)] },
              writes)
          else
            ({ results with
                failed := results.failed ++ [(w.cfg.name, e.message)] },
              writes)
      | .ok (.checked _ changed, evs) =>
          ({ results with
              anyOutOfSync := results.anyOutOfSync || changed },
            writes ++ evs)
      | .ok (.success name slug toolsCount snap breaking, evs) =>
          ({ results with
              breakingChanges := results.breakingChanges ++
                (if opts.nonInteractive then [] else breaking.toList),
              catalogEntries := results.catalogEntries ++
                [⟨slug, name, snap⟩],
              successful := results.successful ++ [(name, toolsCount)] },
            writes ++ evs)

/-- `finalizeSyncOutput`: global catalog (`writeCatalog` rewrites
`catalog.json` from exactly the collected entries), the toolbox README, and
the scripts folder. -/
def finalizeEvents (entries : List CatalogEntry) : List WriteEvent :=
  [.catalogWrite (entries.map fun e => (e.serverSlug, e.serverName)),
   .readmeWrite, .scriptsWrite]

/-- The observable outcome of one `sync` invocation. -/
structure SyncOutcome where
  results : SyncResults
  exitCode : Nat
  writes : List WriteEvent
  prompts : Nat
  aborted : Bool

def emptyResults : SyncResults := ⟨[], [], [], [], [], false⟩

/-- `syncCommand` from `src/commands/sync.ts`: run the loop over the
configured servers; in check mode report drift and write nothing; otherwise
ask a single confirmation after the whole loop when breaking changes were
queued interactively — rejection aborts with exit code 1 before finalizing —
and otherwise finalize the shared outputs, with exit code 1 exactly when
every processed server failed and none succeeded. -/
def syncCommand (opts : SyncOptions) (env : String → Option String)
    (servers : List ServerWorld) : SyncOutcome :=
  let looped := servers.foldl (syncStep opts env) (emptyResults, [])
  let results := looped.1
  let writes := looped.2
  if opts.checkOnly then
    { results := results
      exitCode := if results.anyOutOfSync then 1 else 0
      writes := writes
      prompts := 0
      aborted := false }
  else
    if !opts.nonInteractive && !results.breakingChanges.isEmpty then
      if opts.confirmResponse then
        { results := results
          exitCode :=
            if !results.failed.isEmpty && results.successful.isEmpty then 1
            else 0
          writes := writes ++ finalizeEvents results.catalogEntries
          prompts := 1
          aborted := false }
      else
        { results := results
          exitCode := 1
          writes := writes
          prompts := 1
          aborted := true }
    else
      { results := results
        exitCode :=
          if !results.failed.isEmpty && results.successful.isEmpty then 1
          else 0
        writes := writes ++ finalizeEvents results.catalogEntries
        prompts := 0
        aborted := false }

/-- The per-server failed outcome of one loop iteration, when there is one. -/
def failedOf (opts : SyncOptions) (env : String → Option String)
    (w : ServerWorld) : Option (String × String) :=
  match skippedOf opts env w with
  | some _ => Option.none
  | Option.none =>
      match processServer opts.checkOnly w with
      | .error e =>
          some (w.cfg.name,
            if e.isAuth then "Authentication failed: " ++ e.message
            else e.message)
      | .ok _ => Option.none

/-- The per-server successful outcome of one loop iteration. -/
def successOf (opts : SyncOptions) (env : String → Option String)
    (w : ServerWorld) : Option (String × Nat) :=
  match skippedOf opts env w with
  | some _ => Option.none
  | Option.none =>
      match processServer opts.checkOnly w with
      | .ok (.success name _ toolsCount _ _, _) => some (name, toolsCount)
      | _ => Option.none

/-- The catalog entry one loop iteration collects. -/
def catalogOf (opts : SyncOptions) (env : String → Option String)
    (w : ServerWorld) : Option CatalogEntry :=
  match skippedOf opts env w with
  | some _ => Option.none
  | Option.none =>
      match processServer opts.checkOnly w with
      | .ok (.success name slug _ snap _, _) => some ⟨slug, name, snap⟩
      | _ => Option.none

/-- The breaking-change notice one loop iteration queues (only in
interactive mode). -/
def breakingOf (opts : SyncOptions) (env : String → Option String)
    (w : ServerWorld) : Option BreakingChange :=
  match skippedOf opts env w with
  | some _ => Option.none
  | Option.none =>
      match processServer opts.checkOnly w with
      | .ok (.success _ _ _ _ breaking, _) =>
          if opts.nonInteractive then Option.none else breaking
      | _ => Option.none

/-- The out-of-sync contribution of one loop iteration (check mode). -/
def outOfSyncB (opts : SyncOptions) (env : String → Option String)
    (w : ServerWorld) : Bool :=
  match skippedOf opts env w with
  | some _ => false
  | Option.none =>
      match processServer opts.checkOnly w with
      | .ok (.checked _ changed, _) => changed
      | _ => false

/-- The write events of one loop iteration. -/
def writesOf (opts : SyncOptions) (env : String → Option String)
    (w : ServerWorld) : List WriteEvent :=
  match skippedOf opts env w with
  | some _ => []
  | Option.none =>
      match processServer opts.checkOnly w with
      | .error _ => []
      | .ok (_, evs) => evs

/-- One loop iteration, written as the simultaneous bucket updates. -/
theorem syncStep_eq (opts : SyncOptions) (env : String → Option String)
    (res : SyncResults) (ws : List WriteEvent) (w : ServerWorld) :
    syncStep opts env (res, ws) w =
      ({ successful := res.successful ++ (successOf opts env w).toList
         failed := res.failed ++ (failedOf opts env w).toList
         skipped := res.skipped ++ (skippedOf opts env w).toList
         breakingChanges := res.breakingChanges ++
           (breakingOf opts env w).toList
         catalogEntries := res.catalogEntries ++ (catalogOf opts env w).toList
         anyOutOfSync := res.anyOutOfSync || outOfSyncB opts env w },
       ws ++ writesOf opts env w) := by
  rcases hskip : skippedOf opts env w with _ | entry
  · rcases hproc : processServer opts.checkOnly w with e | ⟨sr, evs⟩
    · by_cases hauth : e.isAuth <;>
        simp [syncStep, failedOf, successOf, catalogOf, breakingOf,
          outOfSyncB, writesOf, hskip, hproc, hauth]
    · cases sr with
      | checked name changed =>
          simp [syncStep, failedOf, successOf, catalogOf, breakingOf,
            outOfSyncB, writesOf, hskip, hproc]
      | success name slug toolsCount snap breaking =>
          by_cases hni : opts.nonInteractive <;>
            simp [syncStep, failedOf, successOf, catalogOf, breakingOf,
              outOfSyncB, writesOf, hskip, hproc, hni]
  · simp [syncStep, failedOf, successOf, catalogOf, breakingOf,
      outOfSyncB, writesOf, hskip]

theorem filterMap_cons_toList {α β : Type} (f : α → Option β) (a : α)
    (l : List α) : (a :: l).filterMap f = (f a).toList ++ l.filterMap f := by
  cases h : f a <;> simp [List.filterMap_cons, h]

/-- Closed form of the whole server loop: every bucket is the concatenation
of the per-server outcomes, independent of the other servers. -/
theorem syncFold_eq (opts : SyncOptions) (env : String → Option String) :
    ∀ (servers : List ServerWorld) (res : SyncResults)
      (ws : List WriteEvent),
    servers.foldl (syncStep opts env) (res, ws) =
      ({ successful := res.successful ++
          servers.filterMap (successOf opts env)
         failed := res.failed ++ servers.filterMap (failedOf opts env)
         skipped := res.skipped ++ servers.filterMap (skippedOf opts env)
         breakingChanges := res.breakingChanges ++
           servers.filterMap (breakingOf opts env)
         catalogEntries := res.catalogEntries ++
           servers.filterMap (catalogOf opts env)
         anyOutOfSync := res.anyOutOfSync ||
           servers.any (outOfSyncB opts env) },
       ws ++ servers.flatMap (writesOf opts env)) := by
  intro servers
  induction servers with
  | nil => intro res ws; simp
  | cons w rest ih =>
      intro res ws
      rw [List.foldl_cons, syncStep_eq, ih]
      simp [filterMap_cons_toList, List.flatMap_cons, List.append_assoc,
        Bool.or_assoc, List.any_cons]

theorem processServer_check {w : ServerWorld} {r : ServerResult}
    {evs : List WriteEvent} (h : processServer true w = .ok (r, evs)) :
    evs = [] ∧ ∃ n c, r = .checked n c := by
  rw [processServer] at h
  by_cases hname : w.cfg.name.isEmpty
  · simp [hname] at h
  · rcases hint : w.introspection with e | snap
    · simp [hname, hint] at h
    · simp only [hname, hint, Bool.false_eq_true, not_false_eq_true,
        if_neg, ite_false, ite_true, if_pos, Except.ok.injEq] at h
      obtain ⟨hr, hevs⟩ := Prod.mk.injEq .. ▸ h
      exact ⟨hevs.symm, _, _, hr.symm⟩

theorem processServer_sync {w : ServerWorld} {r : ServerResult}
    {evs : List WriteEvent} (h : processServer false w = .ok (r, evs)) :
    ∃ name slug c snap br, r = .success name slug c snap br := by
  rw [processServer] at h
  by_cases hname : w.cfg.name.isEmpty
  · simp [hname] at h
  · rcases hint : w.introspection with e | snap
    · simp [hname, hint] at h
    · simp only [hname, hint, Bool.false_eq_true, not_false_eq_true,
        if_neg, ite_false, Except.ok.injEq] at h
      obtain ⟨hr, _⟩ := Prod.mk.injEq .. ▸ h
      exact ⟨_, _, _, _, _, hr.symm⟩

/-- In a non-check run, every non-skipped server is recorded either failed or
successful — exactly one outcome per configured service. -/
theorem outcome_exactlyOne (opts : SyncOptions) (env : String → Option String)
    (w : ServerWorld) (hc : opts.checkOnly = false) :
    [(skippedOf opts env w).isSome, (failedOf opts env w).isSome,
      (successOf opts env w).isSome].count true = 1 := by
  rcases hskip : skippedOf opts env w with _ | entry
  · rcases hproc : processServer opts.checkOnly w with e | ⟨sr, evs⟩
    · simp [failedOf, successOf, hskip, hproc]
    · obtain ⟨name, slug, c, snap, br, hr⟩ :=
        processServer_sync (hc ▸ hproc)
      subst hr
      simp [failedOf, successOf, hskip, hproc]
  · simp [failedOf, successOf, hskip]

theorem successOf_of_breakingOf {opts : SyncOptions}
    {env : String → Option String} {w : ServerWorld}
    (h : breakingOf opts env w ≠ Option.none) :
    successOf opts env w ≠ Option.none := by
  rcases hskip : skippedOf opts env w with _ | entry
  · rcases hproc : processServer opts.checkOnly w with e | ⟨sr, evs⟩
    · simp [breakingOf, hskip, hproc] at h
    · cases sr with
      | checked n c => simp [breakingOf, hskip, hproc] at h
      | success name slug c snap br =>
          simp [successOf, hskip, hproc]
  · simp [breakingOf, hskip] at h

theorem breaking_empty_of_success_empty (opts : SyncOptions)
    (env : String → Option String) (servers : List ServerWorld)
    (h : servers.filterMap (successOf opts env) = []) :
    servers.filterMap (breakingOf opts env) = [] := by
  induction servers with
  | nil => rfl
  | cons w rest ih =>
      rw [List.filterMap_cons] at h ⊢
      rcases hs : successOf opts env w with _ | v
      · rw [hs] at h
        have hb : breakingOf opts env w = Option.none := by
          by_contra hb
          exact (successOf_of_breakingOf hb) hs
        rw [hb]
        exact ih h
      · rw [hs] at h
        cases h

theorem catalogOf_name_eq (opts : SyncOptions) (env : String → Option String)
    (w : ServerWorld) :
    (catalogOf opts env w).map CatalogEntry.serverName =
      (successOf opts env w).map Prod.fst := by
  rcases hskip : skippedOf opts env w with _ | entry
  · rcases hproc : processServer opts.checkOnly w with e | ⟨sr, evs⟩
    · simp [catalogOf, successOf, hskip, hproc]
    · cases sr with
      | checked n c => simp [catalogOf, successOf, hskip, hproc]
      | success name slug c snap br =>
          simp [catalogOf, successOf, hskip, hproc]
  · simp [catalogOf, successOf, hskip]

theorem catalog_names_eq (opts : SyncOptions) (env : String → Option String)
    (servers : List ServerWorld) :
    (servers.filterMap (catalogOf opts env)).map CatalogEntry.serverName =
      (servers.filterMap (successOf opts env)).map Prod.fst := by
  induction servers with
  | nil => rfl
  | cons w rest ih =>
      have hpt := catalogOf_name_eq opts env w
      rw [List.filterMap_cons, List.filterMap_cons]
      rcases hc : catalogOf opts env w with _ | c <;>
        rcases hs : successOf opts env w with _ | v <;>
          rw [hc, hs] at hpt <;> simp at hpt <;>
            simp [ih, hpt]

/-- Payload of a catalog write, `none` for every other event. -/
def catalogPayload : WriteEvent → Option (List (String × String))
  | .catalogWrite entries => some entries
  | _ => Option.none

theorem processServer_events_no_catalog {c : Bool} {w : ServerWorld}
    {r : ServerResult} {evs : List WriteEvent}
    (h : processServer c w = .ok (r, evs)) :
    ∀ e ∈ evs, catalogPayload e = Option.none := by
  rw [processServer] at h
  by_cases hname : w.cfg.name.isEmpty
  · simp [hname] at h
  · rcases hint : w.introspection with e' | snap
    · simp [hname, hint] at h
    · cases c with
      | true =>
          simp only [hname, hint, Bool.false_eq_true, not_false_eq_true,
            if_neg, ite_false, ite_true, if_pos, Except.ok.injEq] at h
          obtain ⟨_, hevs⟩ := Prod.mk.injEq .. ▸ h
          rw [← hevs]
          intro e he
          cases he
      | false =>
          simp only [hname, hint, Bool.false_eq_true, not_false_eq_true,
            if_neg, ite_false, Except.ok.injEq] at h
          obtain ⟨_, hevs⟩ := Prod.mk.injEq .. ▸ h
          rw [← hevs]
          intro e he
          rcases List.mem_append.mp he with he' | he'
          · rcases List.mem_append.mp he' with he'' | he''
            · rcases hold : w.oldSnap with _ | oldSnap
              · rw [hold] at he''
                cases he''
              · rw [hold] at he''
                by_cases hch : (diffSnapshots oldSnap snap).changes.isEmpty
                · simp [hch] at he''
                · simp only [hch, Bool.false_eq_true, not_false_eq_true,
                    if_neg, ite_false, List.mem_singleton] at he''
                  subst he''
                  rfl
            · simp only [snapshotEvents, List.mem_cons,
                List.not_mem_nil, or_false] at he''
              rcases he'' with h | h | h <;> rw [h] <;> rfl
          · simp only [generateEvents, List.mem_append, List.mem_map,
              List.mem_singleton] at he'
            rcases he' with ⟨nm, _, rfl⟩ | rfl <;> rfl

theorem writesOf_no_catalog (opts : SyncOptions)
    (env : String → Option String) (w : ServerWorld) :
    ∀ e ∈ writesOf opts env w, catalogPayload e = Option.none := by
  rcases hskip : skippedOf opts env w with _ | entry
  · rcases hproc : processServer opts.checkOnly w with e | ⟨sr, evs⟩
    · simp [writesOf, hskip, hproc]
    · intro e he
      rw [writesOf, hskip, hproc] at he
      exact processServer_events_no_catalog hproc e he
  · simp [writesOf, hskip]

/-- The `changed` flag computed by `processServer`: no committed metadata or
an empty committed fingerprint count as changed, otherwise the committed
fingerprint is compared with the newly computed one. -/
def changedB (w : ServerWorld) (snap : IntrospectedServer) : Bool :=
  match w.oldMeta with
  | some meta =>
      if meta.schemaFingerprint.isEmpty then true
      else decide (meta.schemaFingerprint ≠
        fingerprintFromTools snap.serverName snap.version snap.tools)
  | Option.none => true

theorem processServer_check_eq {w : ServerWorld} {snap : IntrospectedServer}
    (hname : w.cfg.name.isEmpty = false)
    (hint : w.introspection = Except.ok snap) :
    processServer true w = .ok (.checked w.cfg.name (changedB w snap), []) := by
  have hname' : ¬ w.cfg.name.isEmpty = true := by
    rw [hname]
    exact Bool.false_ne_true
  rw [processServer, hint, if_neg hname']
  rfl

theorem processServer_nameError {w : ServerWorld} {c : Bool}
    (hname : w.cfg.name.isEmpty = true) :
    processServer c w =
      .error ⟨"Server has invalid or missing name: " ++ w.cfg.name, false⟩ := by
  rw [processServer, if_pos hname]

theorem processServer_introError {w : ServerWorld} {c : Bool} {e : IntroError}
    (hname : w.cfg.name.isEmpty = false)
    (hint : w.introspection = Except.error e) :
    processServer c w = .error e := by
  have hname' : ¬ w.cfg.name.isEmpty = true := by
    rw [hname]
    exact Bool.false_ne_true
  rw [processServer, hint, if_neg hname']

/-- In check mode a server is flagged out of sync exactly when it is not
skipped, its name is valid, introspection succeeds, and the committed
fingerprint is absent, empty, or different from the fresh one. -/
theorem outOfSyncB_check (opts : SyncOptions) (env : String → Option String)
    (w : ServerWorld) (hc : opts.checkOnly = true) :
    outOfSyncB opts env w = true ↔
      (skippedOf opts env w = Option.none ∧ w.cfg.name.isEmpty = false ∧
        ∃ snap, w.introspection = Except.ok snap ∧ changedB w snap = true) := by
  rw [outOfSyncB, hc]
  rcases hskip : skippedOf opts env w with _ | entry
  · rcases hname : w.cfg.name.isEmpty with _ | _
    · rcases hint : w.introspection with e | snap
      · rw [processServer_introError hname hint]
        simp [hint]
      · rw [processServer_check_eq hname hint]
        simp [hint]
    · rw [processServer_nameError hname]
      simp [hname]
  · simp [hskip]

theorem breakingOf_nonInteractive (opts : SyncOptions)
    (env : String → Option String) (w : ServerWorld)
    (h : opts.nonInteractive = true) :
    breakingOf opts env w = Option.none := by
  rw [breakingOf]
  rcases hskip : skippedOf opts env w with _ | entry
  · rcases hproc : processServer opts.checkOnly w with e | ⟨sr, evs⟩
    · rfl
    · cases sr with
      | checked n c => rfl
      | success name slug c snap br => simp [h]
  · rfl

theorem filterMap_breaking_nonInteractive (opts : SyncOptions)
    (env : String → Option String) (servers : List ServerWorld)
    (h : opts.nonInteractive = true) :
    servers.filterMap (breakingOf opts env) = [] := by
  induction servers with
  | nil => rfl
  | cons w rest ih =>
      rw [List.filterMap_cons, breakingOf_nonInteractive opts env w h, ih]

theorem writesOf_check (opts : SyncOptions) (env : String → Option String)
    (w : ServerWorld) (hc : opts.checkOnly = true) :
    writesOf opts env w = [] := by
  rcases hskip : skippedOf opts env w with _ | entry
  · rcases hproc : processServer opts.checkOnly w with e | ⟨sr, evs⟩
    · simp [writesOf, hskip, hproc]
    · have := processServer_check (hc ▸ hproc)
      rw [writesOf, hskip, hproc, this.1]
  · simp [writesOf, hskip]

theorem flatMap_writes_check (opts : SyncOptions)
    (env : String → Option String) (servers : List ServerWorld)
    (hc : opts.checkOnly = true) :
    servers.flatMap (writesOf opts env) = [] := by
  induction servers with
  | nil => rfl
  | cons w rest ih =>
      rw [List.flatMap_cons, writesOf_check opts env w hc, ih]
      rfl

/-- The accumulated `SyncResults` of the whole server loop, bucket by
bucket. -/
def loopResults (opts : SyncOptions) (env : String → Option String)
    (servers : List ServerWorld) : SyncResults :=
  { successful := servers.filterMap (successOf opts env)
    failed := servers.filterMap (failedOf opts env)
    skipped := servers.filterMap (skippedOf opts env)
    breakingChanges := servers.filterMap (breakingOf opts env)
    catalogEntries := servers.filterMap (catalogOf opts env)
    anyOutOfSync := servers.any (outOfSyncB opts env) }

/-- `syncCommand` in closed form: the loop results, then the check-mode
summary, the single optional confirmation, and the finalization. -/
theorem syncCommand_eq_closed (opts : SyncOptions)
    (env : String → Option String) (servers : List ServerWorld) :
    syncCommand opts env servers =
      (if opts.checkOnly then
        { results := loopResults opts env servers
          exitCode :=
            if (loopResults opts env servers).anyOutOfSync then 1 else 0
          writes := servers.flatMap (writesOf opts env)
          prompts := 0
          aborted := false }
      else if !opts.nonInteractive &&
          !(loopResults opts env servers).breakingChanges.isEmpty then
        if opts.confirmResponse then
          { results := loopResults opts env servers
            exitCode :=
              if !(loopResults opts env servers).failed.isEmpty &&
                  (loopResults opts env servers).successful.isEmpty then 1
              else 0
            writes := servers.flatMap (writesOf opts env) ++
              finalizeEvents (loopResults opts env servers).catalogEntries
            prompts := 1
            aborted := false }
        else
          { results := loopResults opts env servers
            exitCode := 1
            writes := servers.flatMap (writesOf opts env)
            prompts := 1
            aborted := true }
      else
        { results := loopResults opts env servers
          exitCode :=
            if !(loopResults opts env servers).failed.isEmpty &&
                (loopResults opts env servers).successful.isEmpty then 1
            else 0
          writes := servers.flatMap (writesOf opts env) ++
            finalizeEvents (loopResults opts env servers).catalogEntries
          prompts := 0
          aborted := false }) := by
  rw [syncCommand, syncFold_eq]
  rfl

theorem syncCommand_results (opts : SyncOptions)
    (env : String → Option String) (servers : List ServerWorld) :
    (syncCommand opts env servers).results = loopResults opts env servers := by
  rw [syncCommand_eq_closed]
  split_ifs <;> rfl

theorem syncCommand_prompts (opts : SyncOptions)
    (env : String → Option String) (servers : List ServerWorld)
    (hc : opts.checkOnly = false) :
    (syncCommand opts env servers).prompts =
      (if !opts.nonInteractive &&
          !(loopResults opts env servers).breakingChanges.isEmpty then 1
        else 0) := by
  rw [syncCommand_eq_closed]
  rw [if_neg (by rw [hc]; exact Bool.false_ne_true)]
  split_ifs <;> rfl

theorem syncCommand_aborted (opts : SyncOptions)
    (env : String → Option String) (servers : List ServerWorld)
    (hc : opts.checkOnly = false) :
    (syncCommand opts env servers).aborted =
      (!opts.nonInteractive &&
        !(loopResults opts env servers).breakingChanges.isEmpty &&
        !opts.confirmResponse) := by
  rw [syncCommand_eq_closed]
  rw [if_neg (by rw [hc]; exact Bool.false_ne_true)]
  by_cases hbr : (!opts.nonInteractive &&
      !(loopResults opts env servers).breakingChanges.isEmpty) = true
  · rw [if_pos hbr, hbr]
    cases hcf : opts.confirmResponse <;> simp [hcf]
  · rw [if_neg hbr]
    simp only [Bool.not_eq_true] at hbr
    rw [hbr]
    rfl

theorem syncCommand_exit (opts : SyncOptions)
    (env : String → Option String) (servers : List ServerWorld)
    (hc : opts.checkOnly = false) :
    (syncCommand opts env servers).exitCode =
      (if !opts.nonInteractive &&
          !(loopResults opts env servers).breakingChanges.isEmpty &&
          !opts.confirmResponse then 1
        else if !(loopResults opts env servers).failed.isEmpty &&
            (loopResults opts env servers).successful.isEmpty then 1
        else 0) := by
  rw [syncCommand_eq_closed]
  rw [if_neg (by rw [hc]; exact Bool.false_ne_true)]
  by_cases hbr : (!opts.nonInteractive &&
      !(loopResults opts env servers).breakingChanges.isEmpty) = true
  · rw [if_pos hbr, hbr]
    cases hcf : opts.confirmResponse <;> simp [hcf]
  · rw [if_neg hbr]
    simp only [Bool.not_eq_true] at hbr
    rw [hbr]
    rfl

theorem syncCommand_writes (opts : SyncOptions)
    (env : String → Option String) (servers : List ServerWorld)
    (hc : opts.checkOnly = false) :
    (syncCommand opts env servers).writes =
      (if !opts.nonInteractive &&
          !(loopResults opts env servers).breakingChanges.isEmpty &&
          !opts.confirmResponse then
        servers.flatMap (writesOf opts env)
      else
        servers.flatMap (writesOf opts env) ++
          finalizeEvents (loopResults opts env servers).catalogEntries) := by
  rw [syncCommand_eq_closed]
  rw [if_neg (by rw [hc]; exact Bool.false_ne_true)]
  by_cases hbr : (!opts.nonInteractive &&
      !(loopResults opts env servers).breakingChanges.isEmpty) = true
  · rw [if_pos hbr, hbr]
    cases hcf : opts.confirmResponse <;> simp [hcf]
  · rw [if_neg hbr]
    simp only [Bool.not_eq_true] at hbr
    rw [hbr]
    rfl

theorem isEmpty_eq_true_iff {α : Type} (l : List α) :
    l.isEmpty = true ↔ l = [] := by
  cases l <;> simp [List.isEmpty]

theorem ite_failed_iff {α β : Type} (f : List α) (s : List β) :
    ((if !f.isEmpty && s.isEmpty then (1 : Nat) else 0) = 1) ↔
      (f ≠ [] ∧ s = []) := by
  cases f <;> cases s <;> simp [List.isEmpty]

/-- C6: in check mode the run performs no writes at all, asks no
confirmation, and exits non-zero exactly when some non-skipped server with a
valid name introspects successfully and its committed fingerprint is absent,
empty, or different from the freshly computed one. -/
theorem C6_check_mode (opts : SyncOptions) (env : String → Option String)
    (servers : List ServerWorld) (hc : opts.checkOnly = true) :
    (syncCommand opts env servers).writes = [] ∧
    (syncCommand opts env servers).prompts = 0 ∧
    ((syncCommand opts env servers).exitCode ≠ 0 ↔
      ∃ w ∈ servers, skippedOf opts env w = Option.none ∧
        w.cfg.name.isEmpty = false ∧
        ∃ snap, w.introspection = Except.ok snap ∧ changedB w snap = true) := by
  have h := syncCommand_eq_closed opts env servers
  rw [if_pos hc] at h
  refine ⟨?_, ?_, ?_⟩
  · rw [h]
    exact flatMap_writes_check opts env servers hc
  · rw [h]
  · rw [h]
    show (if (loopResults opts env servers).anyOutOfSync = true
        then 1 else 0) ≠ 0 ↔
      ∃ w ∈ servers, skippedOf opts env w = Option.none ∧
        w.cfg.name.isEmpty = false ∧
        ∃ snap, w.introspection = Except.ok snap ∧ changedB w snap = true
    by_cases hany : (loopResults opts env servers).anyOutOfSync = true
    · rw [if_pos hany]
      have hex := List.any_eq_true.mp hany
      constructor
      · intro _
        obtain ⟨w, hw, hwb⟩ := hex
        exact ⟨w, hw, (outOfSyncB_check opts env w hc).mp hwb⟩
      · intro _
        exact one_ne_zero
    · rw [if_neg hany]
      constructor
      · intro h0
        exact absurd rfl h0
      · rintro ⟨w, hw, hp⟩
        exact absurd
          (List.any_eq_true.mpr
            ⟨w, hw, (outOfSyncB_check opts env w hc).mpr hp⟩) hany

/-- C5: over a list of configured servers each non-skipped server lands in
exactly one of the failed or successful buckets — a single failure never
aborts the loop — and, unless the run was aborted at the breaking-change
confirmation, the exit code is 1 exactly when some server failed and none
succeeded; when all attempted servers failed the exit code is 1
unconditionally. -/
theorem C5_failure_isolation (opts : SyncOptions)
    (env : String → Option String) (servers : List ServerWorld)
    (hc : opts.checkOnly = false) :
    ((syncCommand opts env servers).results.failed =
        servers.filterMap (failedOf opts env) ∧
      (syncCommand opts env servers).results.successful =
        servers.filterMap (successOf opts env) ∧
      ∀ w ∈ servers,
        [(skippedOf opts env w).isSome, (failedOf opts env w).isSome,
          (successOf opts env w).isSome].count true = 1) ∧
    ((syncCommand opts env servers).exitCode = 0 ∨
      (syncCommand opts env servers).exitCode = 1) ∧
    ((syncCommand opts env servers).aborted = false →
      ((syncCommand opts env servers).exitCode = 1 ↔
        (syncCommand opts env servers).results.failed ≠ [] ∧
        (syncCommand opts env servers).results.successful = [])) ∧
    ((syncCommand opts env servers).results.successful = [] ∧
      (syncCommand opts env servers).results.failed ≠ [] →
      (syncCommand opts env servers).exitCode = 1) := by
  have hres := syncCommand_results opts env servers
  have hexit := syncCommand_exit opts env servers hc
  have habort := syncCommand_aborted opts env servers hc
  refine ⟨⟨by rw [hres]; rfl, by rw [hres]; rfl,
      fun w _ => outcome_exactlyOne opts env w hc⟩, ?_, ?_, ?_⟩
  · rw [hexit]
    split_ifs <;> simp
  · intro hab
    rw [habort] at hab
    rw [hexit, hres]
    simp only [hab, Bool.false_eq_true, if_false, ite_false]
    exact ite_failed_iff (loopResults opts env servers).failed
      (loopResults opts env servers).successful
  · rintro ⟨hs, hf⟩
    rw [hres] at hs hf
    rw [hexit]
    have hbr : (loopResults opts env servers).breakingChanges = [] :=
      breaking_empty_of_success_empty opts env servers hs
    have hX : (!opts.nonInteractive &&
        !(loopResults opts env servers).breakingChanges.isEmpty &&
        !opts.confirmResponse) = false := by
      rw [hbr]
      simp
    simp only [hX, Bool.false_eq_true, if_false, ite_false]
    exact (ite_failed_iff (loopResults opts env servers).failed
      (loopResults opts env servers).successful).mpr ⟨hf, hs⟩

/-- C8 (amended): with `--yes` no confirmation is asked and — contrary to
the claim — detected breaking changes are *not* recorded in the run summary;
interactively, all queued breaking changes appear in the summary and exactly
one confirmation is asked when the queue is non-empty, none otherwise. -/
theorem C8_breaking_confirmation (opts : SyncOptions)
    (env : String → Option String) (servers : List ServerWorld)
    (hc : opts.checkOnly = false) :
    (opts.nonInteractive = true →
      (syncCommand opts env servers).prompts = 0 ∧
      (syncCommand opts env servers).results.breakingChanges = [] ∧
      (syncCommand opts env servers).aborted = false) ∧
    (opts.nonInteractive = false →
      (syncCommand opts env servers).results.breakingChanges =
        servers.filterMap (breakingOf opts env) ∧
      (syncCommand opts env servers).prompts =
        (if (servers.filterMap (breakingOf opts env)).isEmpty then 0
          else 1)) := by
  have hres := syncCommand_results opts env servers
  have hpr := syncCommand_prompts opts env servers hc
  have hab := syncCommand_aborted opts env servers hc
  constructor
  · intro hni
    have hbr : servers.filterMap (breakingOf opts env) = [] :=
      filterMap_breaking_nonInteractive opts env servers hni
    refine ⟨?_, ?_, ?_⟩
    · rw [hpr, hni]
      rfl
    · rw [hres]
      exact hbr
    · rw [hab, hni]
      rfl
  · intro hni
    refine ⟨by rw [hres]; rfl, ?_⟩
    rw [hpr, hni]
    show (if (!false &&
        !(servers.filterMap (breakingOf opts env)).isEmpty) = true
      then 1 else 0) =
      (if (servers.filterMap (breakingOf opts env)).isEmpty then 0 else 1)
    cases hbre : (servers.filterMap (breakingOf opts env)).isEmpty <;>
      simp [hbre]

/-- C10 (amended): whenever a non-check run is not aborted at the
breaking-change confirmation, its write trace is the per-server writes —
none of which touches the catalog — followed by exactly one catalog rewrite
holding precisely the entries of the servers that succeeded in this run
(possibly none), the README, and the scripts. -/
theorem C10_catalog_rewrite (opts : SyncOptions)
    (env : String → Option String) (servers : List ServerWorld)
    (hc : opts.checkOnly = false)
    (hab : (syncCommand opts env servers).aborted = false) :
    (syncCommand opts env servers).writes =
      servers.flatMap (writesOf opts env) ++
        [WriteEvent.catalogWrite
          ((servers.filterMap (catalogOf opts env)).map
            fun e => (e.serverSlug, e.serverName)),
         WriteEvent.readmeWrite, WriteEvent.scriptsWrite] ∧
    (∀ e ∈ servers.flatMap (writesOf opts env),
      catalogPayload e = Option.none) ∧
    (servers.filterMap (catalogOf opts env)).map CatalogEntry.serverName =
      (syncCommand opts env servers).results.successful.map Prod.fst := by
  have hw := syncCommand_writes opts env servers hc
  have habt := syncCommand_aborted opts env servers hc
  rw [habt] at hab
  refine ⟨?_, ?_, ?_⟩
  · rw [hw]
    simp only [hab, Bool.false_eq_true, if_false, ite_false]
    rfl
  · intro e he
    rw [List.mem_flatMap] at he
    obtain ⟨w, _, hew⟩ := he
    exact writesOf_no_catalog opts env w e hew
  · rw [syncCommand_results]
    exact catalog_names_eq opts env servers

/-! ### Concrete runs exercising the orchestrator
`breakWorld` is a server whose previous snapshot had one tool `a` that the
fresh introspection no longer offers: the diff is non-empty and breaking. -/

def demoEnv : String → Option String := fun _ => Option.none

def demoTool : McpToolDefinition := ⟨"a", Option.none, Option.none⟩

def demoOldSnap : IntrospectedServer := ⟨"svc", "1", "t0", [demoTool]⟩

def demoNewSnap : IntrospectedServer := ⟨"svc", "2", "t1", []⟩

def breakWorld : ServerWorld :=
  ⟨⟨"svc", .http "https://example" Option.none⟩, some demoOldSnap,
   some ⟨""⟩, Except.ok demoNewSnap⟩

def checkWorld : ServerWorld :=
  ⟨⟨"svc", .http "https://example" Option.none⟩, Option.none,
   Option.none, Except.ok demoNewSnap⟩

def yesOpts : SyncOptions := ⟨true, false, false, true⟩

def askOpts : SyncOptions := ⟨false, false, false, true⟩

def abortOpts : SyncOptions := ⟨false, false, false, false⟩

def checkOpts : SyncOptions := ⟨true, true, false, true⟩

/-- C5 counterexample: in the interactive run over `breakWorld` the single
server synchronizes successfully, yet a rejected breaking-change
confirmation makes the command exit 1 — refuting "exit 0 whenever at least
one service synchronized". -/
theorem C5_counterexample :
    (syncCommand abortOpts demoEnv [breakWorld]).results.successful ≠ [] ∧
    (syncCommand abortOpts demoEnv [breakWorld]).exitCode = 1 := by
  constructor
  · have hs : (syncCommand abortOpts demoEnv
        [breakWorld]).results.successful = [("svc", 0)] := rfl
    rw [hs]
    exact List.cons_ne_nil _ _
  · rfl

/-- C5 witness: the claim theorem applied to the concrete single-server
interactive run that synchronizes `breakWorld` successfully. -/
theorem C5_witness :
    ((syncCommand askOpts demoEnv [breakWorld]).results.failed =
        [breakWorld].filterMap (failedOf askOpts demoEnv) ∧
      (syncCommand askOpts demoEnv [breakWorld]).results.successful =
        [breakWorld].filterMap (successOf askOpts demoEnv) ∧
      ∀ w ∈ [breakWorld],
        [(skippedOf askOpts demoEnv w).isSome,
          (failedOf askOpts demoEnv w).isSome,
          (successOf askOpts demoEnv w).isSome].count true = 1) ∧
    ((syncCommand askOpts demoEnv [breakWorld]).exitCode = 0 ∨
      (syncCommand askOpts demoEnv [breakWorld]).exitCode = 1) ∧
    ((syncCommand askOpts demoEnv [breakWorld]).aborted = false →
      ((syncCommand askOpts demoEnv [breakWorld]).exitCode = 1 ↔
        (syncCommand askOpts demoEnv [breakWorld]).results.failed ≠ [] ∧
        (syncCommand askOpts demoEnv [breakWorld]).results.successful =
          [])) ∧
    ((syncCommand askOpts demoEnv [breakWorld]).results.successful = [] ∧
      (syncCommand askOpts demoEnv [breakWorld]).results.failed ≠ [] →
      (syncCommand askOpts demoEnv [breakWorld]).exitCode = 1) :=
  C5_failure_isolation askOpts demoEnv [breakWorld] rfl

/-- C6 witness: the claim theorem applied to a check run over a server with
no committed metadata, which is therefore out of sync. -/
theorem C6_witness :
    (syncCommand checkOpts demoEnv [checkWorld]).writes = [] ∧
    (syncCommand checkOpts demoEnv [checkWorld]).prompts = 0 ∧
    ((syncCommand checkOpts demoEnv [checkWorld]).exitCode ≠ 0 ↔
      ∃ w ∈ [checkWorld], skippedOf checkOpts demoEnv w = Option.none ∧
        w.cfg.name.isEmpty = false ∧
        ∃ snap, w.introspection = Except.ok snap ∧
          changedB w snap = true) :=
  C6_check_mode checkOpts demoEnv [checkWorld] rfl

/-- C8 counterexample: the very same breaking run records the change in the
summary interactively but leaves the summary empty under `--yes` — refuting
"accepted automatically ... and recorded in the run summary". -/
theorem C8_counterexample :
    (syncCommand yesOpts demoEnv [breakWorld]).results.breakingChanges =
      [] ∧
    (syncCommand askOpts demoEnv [breakWorld]).results.breakingChanges =
      [⟨"svc", "1", "2"⟩] :=
  ⟨rfl, rfl⟩

/-- C8 witness: the claim theorem applied to the interactive run over
`breakWorld`. -/
theorem C8_witness :
    (askOpts.nonInteractive = true →
      (syncCommand askOpts demoEnv [breakWorld]).prompts = 0 ∧
      (syncCommand askOpts demoEnv
        [breakWorld]).results.breakingChanges = [] ∧
      (syncCommand askOpts demoEnv [breakWorld]).aborted = false) ∧
    (askOpts.nonInteractive = false →
      (syncCommand askOpts demoEnv [breakWorld]).results.breakingChanges =
        [breakWorld].filterMap (breakingOf askOpts demoEnv) ∧
      (syncCommand askOpts demoEnv [breakWorld]).prompts =
        (if ([breakWorld].filterMap (breakingOf askOpts demoEnv)).isEmpty
          then 0 else 1)) :=
  C8_breaking_confirmation askOpts demoEnv [breakWorld] rfl

/-- C10 counterexample: rejecting the breaking-change confirmation ends the
run with per-server writes already performed but no catalog rewrite at all —
refuting "after every non-check sync run the catalog is rewritten". -/
theorem C10_counterexample :
    (syncCommand abortOpts demoEnv [breakWorld]).aborted = true ∧
    (syncCommand abortOpts demoEnv [breakWorld]).results.successful ≠ [] ∧
    (syncCommand abortOpts demoEnv [breakWorld]).writes.all
      (fun e => (catalogPayload e).isNone) = true := by
  refine ⟨rfl, ?_, rfl⟩
  have hs : (syncCommand abortOpts demoEnv
      [breakWorld]).results.successful = [("svc", 0)] := rfl
  rw [hs]
  exact List.cons_ne_nil _ _

/-- C10 witness: the claim theorem applied to the non-interactive run over
`breakWorld`, which is never aborted. -/
theorem C10_witness :
    (syncCommand yesOpts demoEnv [breakWorld]).writes =
      [breakWorld].flatMap (writesOf yesOpts demoEnv) ++
        [WriteEvent.catalogWrite
          (([breakWorld].filterMap (catalogOf yesOpts demoEnv)).map
            fun e => (e.serverSlug, e.serverName)),
         WriteEvent.readmeWrite, WriteEvent.scriptsWrite] ∧
    (∀ e ∈ [breakWorld].flatMap (writesOf yesOpts demoEnv),
      catalogPayload e = Option.none) ∧
    ([breakWorld].filterMap (catalogOf yesOpts demoEnv)).map
        CatalogEntry.serverName =
      (syncCommand yesOpts demoEnv
        [breakWorld]).results.successful.map Prod.fst :=
  C10_catalog_rewrite yesOpts demoEnv [breakWorld] rfl rfl

end MT
